import Mathlib

set_option maxHeartbeats 1000000

/-
  Verification development for the goal / required-location solver of
  OoT-Randomizer (source file Goals.py).

  The Python source is embedded shallowly:
  * dictionaries with string keys become association lists (iteration in
    insertion order, as in Python), or total functions when only pointwise
    access matters;
  * object references that would be circular (a Goal holding its owning
    GoalCategory) are replaced by the owner's name, which is how the
    solver itself identifies categories and goals in its output;
  * raising an exception becomes returning Except.error;
  * the external search engine (Search / State, out of scope per the spec)
    is abstracted as an oracle record of functions, so every theorem below
    holds for every possible behaviour of the engine.
-/

namespace OoTGoals

/-- An item spec dictionary inside a goal (GoalItem in the source):
name, required quantity, minimum acceptable quantity, hintable flag. -/
structure GoalItem where
  name : String
  quantity : Nat
  minimum : Nat
  hintable : Bool
  deriving DecidableEq, Repr

/-- The part of an external Item visible to Goals.py: its name, its
solver id (solver_id, optional) and the id of the world the item belongs
to (item.world.id, used when collecting). -/
structure Item where
  name : String
  solver_id : Option Nat
  world_id : Nat
  deriving DecidableEq, Repr

/-- The part of an external Location visible to Goals.py: its name, the
id of its owning world (location.world.id) and its held item. -/
structure Location where
  name : String
  world_id : Nat
  item : Item
  deriving DecidableEq, Repr

/-- The valid display colors (validColors in the source). -/
def validColors : List String :=
  ["White", "Red", "Green", "Blue", "Light Blue", "Pink", "Yellow", "Black"]

/-- A Goal object after construction. The world reference is kept as the
world id, the category back-reference as the category name (see header
note on circular references); the private item cache is the _item_cache
dictionary. -/
structure Goal where
  world_id : Nat
  name : String
  hint_text : String
  color : String
  items : List GoalItem
  locations : List String
  lock_locations : List String
  lock_entrances : List String
  required_locations : List (Location × Nat × Nat × List Nat)
  weight : Nat
  category : Option String
  item_cache : List (String × GoalItem)
  deriving DecidableEq, Repr

/-- Goal.__init__. The two validation checks run in source order; a None
argument for a list-valued parameter is represented by the empty list
(Python truthiness of None and of an empty list agree for every test the
source performs on these parameters). -/
def goalInit (world_id : Nat) (name hint_text color : String)
    (items : List GoalItem) (locations lock_locations lock_entrances : List String)
    (required_locations : List (Location × Nat × Nat × List Nat))
    (create_empty : Bool) : Except String Goal :=
  if items = [] ∧ locations = [] ∧ create_empty = false then
    Except.error "Invalid goal: no items or destinations set"
  else if color ∉ validColors then
    Except.error ("Invalid goal: Color " ++ color ++ " not supported")
  else
    Except.ok
      { world_id := world_id, name := name, hint_text := hint_text, color := color,
        items := items, locations := locations, lock_locations := lock_locations,
        lock_entrances := lock_entrances, required_locations := required_locations,
        weight := 0, category := none, item_cache := [] }

/-- Goal.copy: re-runs the constructor on the same field values with
create_empty set to True. -/
def goalCopy (g : Goal) : Except String Goal :=
  goalInit g.world_id g.name g.hint_text g.color g.items g.locations
    g.lock_locations g.lock_entrances g.required_locations true

/-- Goal.requires(item). The item table lookup
item_table[item][3].get(alias) lives in ItemList.py, outside this source
tree; it is abstracted as the function itemAlias, which returns the first
component of the declared alias of the item type when there is one
(modelled from the spec: the alias set declared by the underlying item
type). -/
def goalRequires (itemAlias : String → Option String) (g : Goal) (item : String) : Bool :=
  let names := match itemAlias item with
    | some a => [item, a]
    | none => [item]
  g.items.any (fun i => decide (i.name ∈ names) && !i.hintable)

/-- The wording of the spec for Goal.requires: true exactly when the item
name, or the alias its item type declares, appears among the goal's item
specs and that spec is marked non-hintable. Used to compare the source
definition against the specification sentence. -/
def requiresSpec (itemAlias : String → Option String) (g : Goal) (item : String) : Prop :=
  ∃ i, i ∈ g.items ∧
    (i.name = item ∨ ∃ a, itemAlias item = some a ∧ i.name = a) ∧
    i.hintable = false

/-- A GoalCategory object. lock_entrances keeps the None / list
distinction because lock_category_entrances tests it against None; the
private goal cache is the _goal_cache dictionary. -/
structure GoalCategory where
  name : String
  priority : Nat
  lock_locations : List String
  lock_entrances : Option (List String)
  goals : List Goal
  goal_count : Nat
  minimum_goals : Nat
  weight : Nat
  goal_cache : List (String × Goal)
  deriving DecidableEq, Repr

/-- GoalCategory.__init__ with the argument list of the source. -/
def categoryInit (name : String) (priority : Nat) (goal_count minimum_goals : Nat)
    (lock_locations : List String) (lock_entrances : Option (List String)) : GoalCategory :=
  { name := name, priority := priority, lock_locations := lock_locations,
    lock_entrances := lock_entrances, goals := [], goal_count := goal_count,
    minimum_goals := minimum_goals, weight := 0, goal_cache := [] }

/-- GoalCategory.add_goal: sets the back-reference and appends. -/
def add_goal (c : GoalCategory) (g : Goal) : GoalCategory :=
  { c with goals := c.goals ++ [{ g with category := some c.name }] }

/-- GoalCategory.copy: a fresh category with the same constructor
arguments and a copy of every goal (weight and caches reset by the
constructors). Goal.copy can fail, so the copy is fallible as well. -/
def categoryCopy (c : GoalCategory) : Except String GoalCategory := do
  let gs ← c.goals.mapM goalCopy
  Except.ok
    { name := c.name, priority := c.priority, lock_locations := c.lock_locations,
      lock_entrances := c.lock_entrances, goals := gs, goal_count := c.goal_count,
      minimum_goals := c.minimum_goals, weight := 0, goal_cache := [] }

/-- C8: Goal construction raises an error exactly when either no items
and no locations are given while create_empty is false, or the display
color is not one of the eight valid palette colors; on success the goal
is created with weight 0, no category binding, and an empty item cache. -/
theorem goalInit_error_iff (world_id : Nat) (name hint_text color : String)
    (items : List GoalItem) (locations lock_locations lock_entrances : List String)
    (required_locations : List (Location × Nat × Nat × List Nat)) (create_empty : Bool) :
    ((∃ e, goalInit world_id name hint_text color items locations lock_locations
        lock_entrances required_locations create_empty = Except.error e) ↔
      ((items = [] ∧ locations = [] ∧ create_empty = false) ∨ color ∉ validColors))
    ∧ (∀ g, goalInit world_id name hint_text color items locations lock_locations
        lock_entrances required_locations create_empty = Except.ok g →
        g.weight = 0 ∧ g.category = none ∧ g.item_cache = []) := by
  unfold goalInit
  by_cases h1 : items = [] ∧ locations = [] ∧ create_empty = false
  · simp [h1]
  · by_cases h2 : color ∉ validColors
    · simp [h1, h2]
    · simp only [if_neg h1, if_neg h2]
      constructor
      · constructor
        · rintro ⟨e, he⟩
          exact absurd he (by simp)
        · rintro (h | h)
          · exact absurd h h1
          · exact absurd h h2
      · intro g hg
        cases hg
        exact ⟨rfl, rfl, rfl⟩

/-- Sample item spec used by concrete witnesses. -/
def sampleSpec : GoalItem := { name := "X", quantity := 2, minimum := 1, hintable := true }

/-- The goal value produced by the concrete construction of the C8
witness. -/
def sampleBuiltGoal : Goal :=
  { world_id := 0, name := "g", hint_text := "h", color := "White", items := [sampleSpec],
    locations := [], lock_locations := [], lock_entrances := [],
    required_locations := [], weight := 0, category := none, item_cache := [] }

/-- Witness for C8: a concrete successful construction, checked through
the theorem itself, with the success hypothesis discharged by computation. -/
theorem goalInit_error_iff_witness :
    sampleBuiltGoal.weight = 0 ∧ sampleBuiltGoal.category = none ∧
      sampleBuiltGoal.item_cache = [] :=
  (goalInit_error_iff 0 "g" "h" "White" [sampleSpec] [] [] [] [] false).2
    sampleBuiltGoal (by rfl)

/-- C9: for every goal g whose display color satisfies the palette
invariant of the data model, g.copy() returns (without raising, even when
g has no items and no locations, because the copy is constructed as
explicitly empty) a new Goal whose items and required_locations are the
very same values as those of g, whose weight is 0 and whose category
binding is none, regardless of the current weight and category of g. -/
theorem goalCopy_ok (g : Goal) (h : g.color ∈ validColors) :
    goalCopy g = Except.ok
      { world_id := g.world_id, name := g.name, hint_text := g.hint_text,
        color := g.color, items := g.items, locations := g.locations,
        lock_locations := g.lock_locations, lock_entrances := g.lock_entrances,
        required_locations := g.required_locations,
        weight := 0, category := none, item_cache := [] } := by
  unfold goalCopy goalInit
  have h1 : ¬(g.items = [] ∧ g.locations = [] ∧ true = false) := by simp
  rw [if_neg h1, if_neg (by simpa using h)]

/-- Witness for C9: a concrete goal with nonzero weight and a category
binding, whose copy resets both; the hypothesis (the palette invariant)
is discharged on the concrete color. -/
theorem goalCopy_ok_witness :
    goalCopy
      { world_id := 0, name := "g", hint_text := "h", color := "Red", items := [],
        locations := [], lock_locations := [], lock_entrances := [],
        required_locations := [], weight := 7, category := some "c", item_cache := [] }
      = Except.ok
      { world_id := 0, name := "g", hint_text := "h", color := "Red", items := [],
        locations := [], lock_locations := [], lock_entrances := [],
        required_locations := [], weight := 0, category := none, item_cache := [] } :=
  goalCopy_ok
    { world_id := 0, name := "g", hint_text := "h", color := "Red", items := [],
      locations := [], lock_locations := [], lock_entrances := [],
      required_locations := [], weight := 7, category := some "c", item_cache := [] }
    (by decide)

/-- Association-list lookup, mirroring a Python dictionary read (first
binding for the key, scanned in insertion order). -/
def alook {κ α : Type _} [DecidableEq κ] (k : κ) : List (κ × α) → Option α
  | [] => none
  | p :: r => if p.1 = k then some p.2 else alook k r

/-- Association-list write for a key already present, mirroring a Python
dictionary assignment to an existing key (the binding is replaced in
place; a missing key leaves the list unchanged and is never exercised
below on a missing key). -/
def aupdate {κ α : Type _} [DecidableEq κ] (k : κ) (v : α) : List (κ × α) → List (κ × α)
  | [] => []
  | p :: r => if p.1 = k then (k, v) :: r else p :: aupdate k v r

/-- Association-list insert-or-replace, mirroring a Python dictionary
assignment: an existing binding is replaced in place, otherwise the new
binding is appended at the end (Python dictionaries preserve insertion
order). -/
def ainsert {κ α : Type _} [DecidableEq κ] (k : κ) (v : α) : List (κ × α) → List (κ × α)
  | [] => [(k, v)]
  | p :: r => if p.1 = k then (k, v) :: r else p :: ainsert k v r

/-- The per-world mutable collected-item state of the external search
engine, as far as update_reachable_goals observes it: a multiset of item
counts. State.py is not part of this source tree. -/
structure SolverState where
  counts : String → Nat

/-- Modelled from the spec: State.item_name_count (State.py is outside
this source tree) — the number of copies of the named item obtainable in
the given search state. -/
def item_name_count (s : SolverState) (n : String) : Nat := s.counts n

/-- Modelled from the spec: State.has_item_goal (State.py is outside this
source tree) — whether the minimum requirement of the item spec is
reachable in the given search state. The guard in Goals.py reads "Only
reduce goal item quantity if minimum goal requirements are reachable" and
"Beatable check is required to prevent inadvertently setting goal
requirements to 0 or some quantity less than the minimum", and the spec
describes the same screen as existing "to avoid degenerate
zero/under-minimum requirements". -/
def has_item_goal (s : SolverState) (i : GoalItem) : Bool :=
  decide (i.minimum ≤ s.counts i.name)

/-- The part of a World visible to update_reachable_goals: its goal
category table (state.world.goal_categories). -/
structure SWorld where
  goal_categories : List (String × GoalCategory)

/-- The quantity-shrinking body of update_reachable_goals for one goal:
if the goal has item specs and every spec passes has_item_goal against
the fully-collected state, each quantity is lowered to the minimum of the
obtainable count and the current quantity; otherwise the goal is left
unchanged. -/
def shrinkGoal (full : SolverState) (goal : Goal) : Goal :=
  if goal.items ≠ [] ∧ goal.items.all (fun i => has_item_goal full i) then
    let newItems := goal.items.map
      (fun i => { i with quantity := min (item_name_count full i.name) i.quantity })
    { goal with items := newItems }
  else goal

/-- One iteration of the update_reachable_goals loop: the world of the
starting state at the given index. The fully-collected state list is
indexed positionally; Python only performs that indexing when some goal
of the category actually has item specs, and raises IndexError (modelled
as none) when the lists are not aligned. -/
def update_reachable_goals_world (catName : String) (fulls : List SolverState)
    (i : Nat) (w : SWorld) : Option SWorld :=
  match alook catName w.goal_categories with
  | none => some w
  | some cat =>
    if cat.goals.all (fun g => g.items = []) then some w
    else
      match fulls.get? i with
      | none => none
      | some full =>
        let cat2 : GoalCategory := { cat with goals := cat.goals.map (shrinkGoal full) }
        some { w with goal_categories := aupdate catName cat2 w.goal_categories }

/-- The enumerate loop of update_reachable_goals. -/
def update_reachable_goals_go (catName : String) (fulls : List SolverState) :
    Nat → List SWorld → Option (List SWorld)
  | _, [] => some []
  | i, w :: ws =>
    match update_reachable_goals_world catName fulls i w with
    | none => none
    | some w2 =>
      match update_reachable_goals_go catName fulls (i + 1) ws with
      | none => none
      | some ws2 => some (w2 :: ws2)

/-- GoalCategory.update_reachable_goals for the category of the given
name: the starting search state list is represented by the worlds of its
states (the only part the method reads), the full search state list by
the obtainable item counts of its states. -/
def update_reachable_goals (catName : String) (starts : List SWorld)
    (fulls : List SolverState) : Option (List SWorld) :=
  update_reachable_goals_go catName fulls 0 starts

theorem alook_aupdate_self {α : Type _} (k : String) (v v0 : α) :
    ∀ l : List (String × α), alook k l = some v0 → alook k (aupdate k v l) = some v := by
  intro l
  induction l with
  | nil => intro h; simp [alook] at h
  | cons p r ih =>
    intro h
    by_cases hk : p.1 = k
    · simp [alook, aupdate, hk]
    · simp [alook, aupdate, hk] at h ⊢
      exact ih h

theorem alook_aupdate_ne {α : Type _} (k k2 : String) (v : α) (hne : k2 ≠ k) :
    ∀ l : List (String × α), alook k2 (aupdate k v l) = alook k2 l := by
  intro l
  induction l with
  | nil => simp [alook, aupdate]
  | cons p r ih =>
    by_cases hk : p.1 = k
    · simp [alook, aupdate, hk, Ne.symm hne]
    · simp only [aupdate, if_neg hk, alook]
      by_cases hk2 : p.1 = k2
      · simp [hk2]
      · simp [hk2, ih]

/-- The relation between the world of one starting state and the same
world after update_reachable_goals, used to state C2: all category, goal
and item-spec structure is preserved positionally; every item-spec
quantity either keeps at least its declared minimum or is not reduced at
all; in the named category a quantity is shrunk exactly to the minimum of
the obtainable count and the current quantity when the goal has item
specs and every spec passes the reachability screen, and every other spec
is left unchanged. -/
def urgWorldRel (catName : String) (fullq : Option SolverState) (w w2 : SWorld) : Prop :=
  ∀ cn cat cat2, alook cn w.goal_categories = some cat →
    alook cn w2.goal_categories = some cat2 →
    cat2.goals.length = cat.goals.length ∧
    ∀ j g g2, cat.goals.get? j = some g → cat2.goals.get? j = some g2 →
      g2.name = g.name ∧ g2.items.length = g.items.length ∧
      ∀ k s s2, g.items.get? k = some s → g2.items.get? k = some s2 →
        s2.name = s.name ∧ s2.minimum = s.minimum ∧ s2.quantity ≤ s.quantity ∧
        (s2.quantity < s.quantity → s.minimum ≤ s2.quantity) ∧
        ∀ full, fullq = some full →
          ((cn = catName ∧ g.items ≠ [] ∧ g.items.all (fun i2 => has_item_goal full i2)) →
            s2.quantity = min (item_name_count full s.name) s.quantity) ∧
          (¬(cn = catName ∧ g.items ≠ [] ∧ g.items.all (fun i2 => has_item_goal full i2)) →
            s2 = s)

theorem urgRelIdentity (catName cn : String) (fullq : Option SolverState)
    (cat : GoalCategory)
    (hno : ∀ full g, fullq = some full → g ∈ cat.goals →
      ¬(cn = catName ∧ g.items ≠ [] ∧ g.items.all (fun i2 => has_item_goal full i2))) :
    cat.goals.length = cat.goals.length ∧
    ∀ j g g2, cat.goals.get? j = some g → cat.goals.get? j = some g2 →
      g2.name = g.name ∧ g2.items.length = g.items.length ∧
      ∀ k s s2, g.items.get? k = some s → g2.items.get? k = some s2 →
        s2.name = s.name ∧ s2.minimum = s.minimum ∧ s2.quantity ≤ s.quantity ∧
        (s2.quantity < s.quantity → s.minimum ≤ s2.quantity) ∧
        ∀ full, fullq = some full →
          ((cn = catName ∧ g.items ≠ [] ∧ g.items.all (fun i2 => has_item_goal full i2)) →
            s2.quantity = min (item_name_count full s.name) s.quantity) ∧
          (¬(cn = catName ∧ g.items ≠ [] ∧ g.items.all (fun i2 => has_item_goal full i2)) →
            s2 = s) := by
  refine ⟨rfl, ?_⟩
  intro j g g2 hg hg2
  rw [hg] at hg2
  injection hg2 with hg2
  subst hg2
  refine ⟨rfl, rfl, ?_⟩
  intro k s s2 hs hs2
  rw [hs] at hs2
  injection hs2 with hs2
  subst hs2
  refine ⟨rfl, rfl, le_refl _, fun hlt => absurd hlt (lt_irrefl _), ?_⟩
  intro full hfull
  exact ⟨fun hc => absurd hc (hno full g hfull (List.get?_mem hg)), fun _ => rfl⟩

theorem update_reachable_goals_world_rel (catName : String) (fulls : List SolverState)
    (i : Nat) (w w2 : SWorld)
    (h : update_reachable_goals_world catName fulls i w = some w2) :
    urgWorldRel catName (fulls.get? i) w w2 := by
  unfold update_reachable_goals_world at h
  split at h
  · rename_i hcc
    injection h with h
    subst h
    intro cn cat cat2 hcat hcat2
    rw [hcat] at hcat2
    injection hcat2 with hcat2
    subst hcat2
    refine urgRelIdentity catName cn (fulls.get? i) cat ?_
    intro full g _ _ hc
    rw [hc.1] at hcat
    rw [hcat] at hcc
    cases hcc
  · rename_i cat0 hcc
    split at h
    · rename_i hemp
      injection h with h
      subst h
      intro cn cat cat2 hcat hcat2
      rw [hcat] at hcat2
      injection hcat2 with hcat2
      subst hcat2
      refine urgRelIdentity catName cn (fulls.get? i) cat ?_
      intro full g _ hg hc
      rw [hc.1] at hcat
      rw [hcat] at hcc
      injection hcc with hcc
      subst hcc
      have : g.items = [] := by
        have := (List.all_eq_true.mp hemp) g hg
        simpa using this
      exact hc.2.1 this
    · rename_i hemp
      split at h
      · cases h
      · rename_i full hfull
        injection h with h
        subst h
        intro cn cat cat2 hcat hcat2
        by_cases hcn : cn = catName
        · subst hcn
          rw [hcat] at hcc
          injection hcc with hcc
          subst hcc
          have hup := alook_aupdate_self cn
            { cat with goals := cat.goals.map (shrinkGoal full) } cat w.goal_categories hcat
          rw [hup] at hcat2
          injection hcat2 with hcat2
          subst hcat2
          refine ⟨by simp, ?_⟩
          intro j g g2 hg hg2
          simp only [List.get?_map, hg, Option.map_some'] at hg2
          injection hg2 with hg2
          subst hg2
          unfold shrinkGoal
          by_cases hsh : g.items ≠ [] ∧ g.items.all (fun i2 => has_item_goal full i2)
          · rw [if_pos hsh]
            refine ⟨rfl, by simp, ?_⟩
            intro k s s2 hs hs2
            simp only [List.get?_map, hs, Option.map_some'] at hs2
            injection hs2 with hs2
            subst hs2
            refine ⟨rfl, rfl, min_le_right _ _, ?_, ?_⟩
            · intro hlt
              have hlt2 : min (item_name_count full s.name) s.quantity < s.quantity := hlt
              show s.minimum ≤ min (item_name_count full s.name) s.quantity
              have hcnt : min (item_name_count full s.name) s.quantity =
                  item_name_count full s.name := by
                rcases Nat.le_total (item_name_count full s.name) s.quantity with hle | hle
                · exact Nat.min_eq_left hle
                · rw [Nat.min_eq_right hle] at hlt2
                  exact absurd hlt2 (lt_irrefl _)
              rw [hcnt]
              have hsmem : s ∈ g.items := List.get?_mem hs
              have := (List.all_eq_true.mp hsh.2) s hsmem
              simpa [has_item_goal, item_name_count] using this
            · intro full2 hfull2
              rw [hfull] at hfull2
              injection hfull2 with hfull2
              subst hfull2
              refine ⟨fun _ => rfl, fun hc => absurd ⟨rfl, hsh⟩ hc⟩
          · rw [if_neg hsh]
            refine ⟨rfl, rfl, ?_⟩
            intro k s s2 hs hs2
            rw [hs] at hs2
            injection hs2 with hs2
            subst hs2
            refine ⟨rfl, rfl, le_refl _, fun hlt => absurd hlt (lt_irrefl _), ?_⟩
            intro full2 hfull2
            rw [hfull] at hfull2
            injection hfull2 with hfull2
            subst hfull2
            exact ⟨fun hc => absurd hc.2 hsh, fun _ => rfl⟩
        · have hne := alook_aupdate_ne catName cn
            { cat0 with goals := cat0.goals.map (shrinkGoal full) } hcn w.goal_categories
          rw [hne, hcat] at hcat2
          injection hcat2 with hcat2
          subst hcat2
          refine urgRelIdentity catName cn (fulls.get? i) cat ?_
          intro full2 g _ _ hc
          exact hcn hc.1

theorem update_reachable_goals_go_spec (catName : String) (fulls : List SolverState) :
    ∀ (starts : List SWorld) (i : Nat),
      (∀ j, j < starts.length → (fulls.get? (i + j)).isSome) →
      ∃ ws2, update_reachable_goals_go catName fulls i starts = some ws2 ∧
        ws2.length = starts.length ∧
        ∀ j w w2, starts.get? j = some w → ws2.get? j = some w2 →
          urgWorldRel catName (fulls.get? (i + j)) w w2 := by
  intro starts
  induction starts with
  | nil =>
    intro i _
    exact ⟨[], rfl, rfl, by intro j w w2 hw; simp at hw⟩
  | cons w ws ih =>
    intro i h
    have hhead : ∃ w2, update_reachable_goals_world catName fulls i w = some w2 := by
      cases hu : update_reachable_goals_world catName fulls i w with
      | some wu => exact ⟨wu, rfl⟩
      | none =>
        exfalso
        unfold update_reachable_goals_world at hu
        split at hu
        · cases hu
        · split at hu
          · cases hu
          · split at hu
            · rename_i hfull
              have h0 : (fulls.get? (i + 0)).isSome := h 0 (by simp)
              rw [Nat.add_zero, hfull] at h0
              cases h0
            · cases hu
    obtain ⟨w2, hw2⟩ := hhead
    have hshift : ∀ j, j < ws.length → (fulls.get? (i + 1 + j)).isSome := by
      intro j hj
      have := h (j + 1) (by simpa using Nat.succ_lt_succ hj)
      have e : i + (j + 1) = i + 1 + j := by omega
      rwa [e] at this
    obtain ⟨ws2, hgo, hlen, hrel⟩ := ih (i + 1) hshift
    refine ⟨w2 :: ws2, ?_, by simp [hlen], ?_⟩
    · unfold update_reachable_goals_go
      rw [hw2, hgo]
    · intro j wj wj2 hj hj2
      cases j with
      | zero =>
        simp only [List.get?] at hj hj2
        injection hj with hj
        injection hj2 with hj2
        subst hj
        subst hj2
        rw [Nat.add_zero]
        exact update_reachable_goals_world_rel catName fulls i _ _ hw2
      | succ jj =>
        simp only [List.get?] at hj hj2
        have := hrel jj wj wj2 hj hj2
        have e : i + (jj + 1) = i + 1 + jj := by omega
        rwa [e]

/-- C2: for every invocation of update_reachable_goals on aligned
starting and full search state lists the loop indexes safely and no item
spec's quantity is ever reduced below that spec's declared minimum: in
the named category, a goal's quantities are shrunk to the minimum of the
obtainable count in the full search and the current quantity exactly when
every item spec of that goal is fully satisfiable (passes has_item_goal)
in the full search, and are left unchanged otherwise (see urgWorldRel for
the per-world statement). -/
theorem update_reachable_goals_quantity_floor (catName : String)
    (starts : List SWorld) (fulls : List SolverState)
    (halign : starts.length ≤ fulls.length) :
    ∃ ws2, update_reachable_goals catName starts fulls = some ws2 ∧
      ws2.length = starts.length ∧
      ∀ j w w2, starts.get? j = some w → ws2.get? j = some w2 →
        urgWorldRel catName (fulls.get? j) w w2 := by
  obtain ⟨ws2, h1, h2, h3⟩ := update_reachable_goals_go_spec catName fulls starts 0
    (by
      intro j hj
      have hjf : j < fulls.length := lt_of_lt_of_le hj halign
      rw [Nat.zero_add, List.get?_eq_get hjf]
      rfl)
  refine ⟨ws2, h1, h2, ?_⟩
  intro j w w2 hw hw2
  have := h3 j w w2 hw hw2
  rwa [Nat.zero_add] at this

/-- Concrete fixture for the C2 witness: one world holding the category
b with a single goal whose token spec asks for 5 with minimum 2, and a
full search in which only 3 are obtainable. -/
def urgSampleWorld : SWorld :=
  { goal_categories :=
      [("b", { name := "b", priority := 10, lock_locations := [], lock_entrances := none,
               goals := [{ world_id := 0, name := "t", hint_text := "h", color := "White",
                           items := [{ name := "X", quantity := 5, minimum := 2, hintable := false }],
                           locations := [], lock_locations := [], lock_entrances := [],
                           required_locations := [], weight := 0, category := some "b",
                           item_cache := [] }],
               goal_count := 1, minimum_goals := 1, weight := 0, goal_cache := [] })] }

/-- Concrete full search state for the C2 witness. -/
def urgSampleFull : SolverState := { counts := fun n => if n = "X" then 3 else 0 }

/-- Witness for C2: the theorem applied to the concrete aligned lists,
with the alignment hypothesis discharged by computation. -/
theorem update_reachable_goals_quantity_floor_witness :
    ∃ ws2, update_reachable_goals "b" [urgSampleWorld] [urgSampleFull] = some ws2 ∧
      ws2.length = [urgSampleWorld].length ∧
      ∀ j w w2, [urgSampleWorld].get? j = some w → ws2.get? j = some w2 →
        urgWorldRel "b" ([urgSampleFull].get? j) w w2 :=
  update_reachable_goals_quantity_floor "b" [urgSampleWorld] [urgSampleFull]
    (by decide)

/-- An access rule of an entrance (AccessRule in RulesCommon.py): a
predicate over the abstract solver state, which only Goals.py treats as
an opaque callable. -/
def AccessRule : Type := Nat → Bool

/-- The constant-false replacement rule. The source creates a fresh
lambda per locked entrance; all of them have this same behaviour, and
Goals.py never compares rules by identity. -/
def constFalse : AccessRule := fun _ => false

/-- An entrance of a world: its name and its current access rule. -/
structure Entrance where
  name : String
  access_rule : AccessRule

/-- The part of a World visible to the lock and unlock helpers: its id and
its entrance table. The table of all worlds is global mutable state, so
states reference their world by id into it. -/
structure CWorld where
  id : Nat
  entrances : List Entrance

/-- The global world table (worlds are shared mutable state; a State is
represented by the id of the world it references). -/
abbrev WTable := List CWorld

/-- Entrance lookup within one world (World.get_entrance reads the first
entrance carrying the name; a missing name raises, represented by none
at the call sites). -/
def eget (n : String) : List Entrance → Option AccessRule
  | [] => none
  | e :: r => if e.name = n then some e.access_rule else eget n r

/-- In-place overwrite of the access rule of the first entrance carrying
the name (a missing name changes nothing; call sites check presence
first, as the source looks the entrance up before assigning). -/
def eset (n : String) (rule : AccessRule) : List Entrance → List Entrance
  | [] => []
  | e :: r => if e.name = n then { e with access_rule := rule } :: r else e :: eset n rule r

/-- Access rule of the named entrance of the world with the given id. -/
def getRule (tbl : WTable) (wid : Nat) (n : String) : Option AccessRule :=
  match tbl with
  | [] => none
  | w :: r => if w.id = wid then eget n w.entrances else getRule r wid n

/-- Overwrite the access rule of the named entrance of the world with the
given id. -/
def setRule (tbl : WTable) (wid : Nat) (n : String) (rule : AccessRule) : WTable :=
  match tbl with
  | [] => []
  | w :: r =>
    if w.id = wid then { w with entrances := eset n rule w.entrances } :: r
    else w :: setRule r wid n rule

theorem eget_eset (es : List Entrance) (n n2 : String) (rule : AccessRule) :
    eget n2 (eset n rule es) =
      if n2 = n ∧ (eget n es).isSome then some rule else eget n2 es := by
  induction es with
  | nil => simp [eget, eset]
  | cons e r ih =>
    by_cases h1 : e.name = n
    · by_cases h2 : n2 = n
      · simp [eget, eset, h1, h2]
      · have hne : ¬(n = n2) := fun hc => h2 hc.symm
        simp [eget, eset, h1, h2, hne]
    · by_cases h2 : e.name = n2
      · have hne : ¬(n2 = n) := fun hc => h1 (h2.trans hc)
        simp [eget, eset, h1, h2, hne]
      · simp [eget, eset, h1, h2, ih]

theorem getRule_setRule (tbl : WTable) (wid : Nat) (n : String) (rule : AccessRule)
    (wid2 : Nat) (n2 : String) :
    getRule (setRule tbl wid n rule) wid2 n2 =
      if wid2 = wid ∧ n2 = n ∧ (getRule tbl wid n).isSome then some rule
      else getRule tbl wid2 n2 := by
  induction tbl with
  | nil => simp [getRule, setRule]
  | cons w r ih =>
    by_cases h1 : w.id = wid
    · by_cases h2 : wid2 = wid
      · have h3 : w.id = wid2 := h1.trans h2.symm
        simp only [getRule, setRule, if_pos h1, if_pos h3, h2, true_and]
        exact eget_eset w.entrances n n2 rule
      · have h3 : ¬(w.id = wid2) := fun hc => h2 ((h1.symm.trans hc).symm)
        have h4 : ¬(wid = wid2) := fun hc => h2 hc.symm
        simp [getRule, setRule, h1, h3, h2, h4]
    · by_cases h2 : w.id = wid2
      · have h3 : ¬(wid2 = wid) := fun hc => h1 (h2.trans hc)
        simp [getRule, setRule, h1, h2, h3]
      · simp [getRule, setRule, h1, h2, ih]

theorem getRule_setRule_isSome (tbl : WTable) (wid : Nat) (n : String) (rule : AccessRule)
    (wid2 : Nat) (n2 : String) :
    (getRule (setRule tbl wid n rule) wid2 n2).isSome = (getRule tbl wid2 n2).isSome := by
  rw [getRule_setRule]
  by_cases h : wid2 = wid ∧ n2 = n ∧ (getRule tbl wid n).isSome
  · rw [if_pos h]
    obtain ⟨h1, h2, h3⟩ := h
    subst h1
    subst h2
    simp [h3]
  · rw [if_neg h]

/-- The saved predicates of one state: entrance name to original access
rule (the inner dictionary of category_locks). -/
abbrev SavedRules := List (String × AccessRule)

/-- The full category_locks structure: state index to saved predicates,
in insertion order. -/
abbrev CategoryLocks := List (Nat × SavedRules)

/-- The inner loop of lock_category_entrances for one state: for each
lock name in order, look the entrance up (a missing entrance raises),
save its current rule into the state's dictionary (a repeated name
overwrites the earlier save, as a Python dict assignment does) and
replace the rule by the constant-false predicate. -/
def lockOne (wid : Nat) : List String → SavedRules → WTable → Except String (SavedRules × WTable)
  | [], saves, tbl => Except.ok (saves, tbl)
  | n :: rest, saves, tbl =>
    match getRule tbl wid n with
    | none => Except.error ("Unknown entrance " ++ n)
    | some r => lockOne wid rest (ainsert n r saves) (setRule tbl wid n constFalse)

/-- The outer loop of lock_category_entrances over the enumerated state
list (an entry is created for every state index even when the lock list
is empty, exactly as category_locks[index] is initialised to an empty
dictionary before the inner loop runs). -/
def lockGo (names : List String) : List Nat → Nat → WTable → Except String (CategoryLocks × WTable)
  | [], _, tbl => Except.ok ([], tbl)
  | wid :: rest, idx, tbl =>
    match lockOne wid names [] tbl with
    | Except.error e => Except.error e
    | Except.ok (saves, tbl2) =>
      match lockGo names rest (idx + 1) tbl2 with
      | Except.error e => Except.error e
      | Except.ok (cl, tbl3) => Except.ok ((idx, saves) :: cl, tbl3)

/-- lock_category_entrances: disables the access rules of the category's
lock entrances for every state of the list and returns the saved
originals; a category whose lock_entrances is None returns an empty lock
map and leaves the table untouched. -/
def lock_category_entrances (tbl : WTable) (cat : GoalCategory) (state_list : List Nat) :
    Except String (CategoryLocks × WTable) :=
  match cat.lock_entrances with
  | none => Except.ok ([], tbl)
  | some names => lockGo names state_list 0 tbl

/-- The inner loop of unlock_category_entrances for one state: each saved
predicate is written back (the entrance is looked up first, as in the
source, so a missing entrance raises). -/
def unlockOne (wid : Nat) : SavedRules → WTable → Except String WTable
  | [], tbl => Except.ok tbl
  | (n, r) :: rest, tbl =>
    match getRule tbl wid n with
    | none => Except.error ("Unknown entrance " ++ n)
    | some _ => unlockOne wid rest (setRule tbl wid n r)

/-- unlock_category_entrances: restores every saved predicate, resolving
each state index into the same state list that was locked (an index out
of range raises). -/
def unlock_category_entrances (tbl : WTable) (cl : CategoryLocks) (state_list : List Nat) :
    Except String WTable :=
  match cl with
  | [] => Except.ok tbl
  | (idx, saves) :: rest =>
    match state_list.get? idx with
    | none => Except.error "state index out of range"
    | some wid =>
      match unlockOne wid saves tbl with
      | Except.error e => Except.error e
      | Except.ok tbl2 => unlock_category_entrances tbl2 rest state_list

theorem alook_eq_none_iff {α : Type _} (k : String) :
    ∀ l : List (String × α), alook k l = none ↔ k ∉ l.map Prod.fst := by
  intro l
  induction l with
  | nil => simp [alook]
  | cons p r ih =>
    by_cases h : p.1 = k
    · simp [alook, h]
    · rw [alook, if_neg h, List.map_cons]
      constructor
      · intro h2 hc
        rcases List.mem_cons.mp hc with hc1 | hc2
        · exact h hc1.symm
        · exact (ih.mp h2) hc2
      · intro h2
        exact ih.mpr (fun hc => h2 (List.mem_cons_of_mem _ hc))

theorem ainsert_of_absent {α : Type _} (k : String) (v : α) :
    ∀ l : List (String × α), alook k l = none → ainsert k v l = l ++ [(k, v)] := by
  intro l
  induction l with
  | nil => simp [ainsert]
  | cons p r ih =>
    intro h
    by_cases hp : p.1 = k
    · simp [alook, hp] at h
    · simp only [ainsert, if_neg hp, List.cons_append, List.cons.injEq, true_and]
      exact ih (by simpa [alook, hp] using h)

theorem alook_append {α : Type _} (k : String) :
    ∀ l1 l2 : List (String × α), alook k (l1 ++ l2) =
      match alook k l1 with
      | some v => some v
      | none => alook k l2 := by
  intro l1 l2
  induction l1 with
  | nil => simp [alook]
  | cons p r ih =>
    by_cases hp : p.1 = k
    · simp [alook, hp]
    · simp [alook, hp, ih]

theorem alook_isSome_of_mem {α : Type _} (k : String) (v : α) :
    ∀ l : List (String × α), (k, v) ∈ l → (alook k l).isSome := by
  intro l
  induction l with
  | nil => intro h; cases h
  | cons p r ih =>
    intro h
    by_cases hp : p.1 = k
    · simp [alook, hp]
    · rcases List.mem_cons.mp h with h1 | h2
      · subst h1
        simp at hp
      · simpa [alook, hp] using ih h2

theorem lockOne_pointwise (wid : Nat) :
    ∀ (names : List String) (saves0 : SavedRules) (tbl : WTable),
      names.Nodup → (saves0.map Prod.fst).Nodup →
      (∀ n, n ∈ names → alook n saves0 = none) →
      (∀ n, n ∈ names → (getRule tbl wid n).isSome) →
      ∃ saves tbl2, lockOne wid names saves0 tbl = Except.ok (saves, tbl2) ∧
        (saves.map Prod.fst).Nodup ∧
        (∀ n2, alook n2 saves = if n2 ∈ names then getRule tbl wid n2 else alook n2 saves0) ∧
        (∀ wid2 n2, getRule tbl2 wid2 n2 =
          if wid2 = wid ∧ n2 ∈ names then some constFalse else getRule tbl wid2 n2) := by
  intro names
  induction names with
  | nil =>
    intro saves0 tbl _ hk _ _
    refine ⟨saves0, tbl, rfl, hk, ?_, ?_⟩
    · intro n2; simp
    · intro wid2 n2; simp
  | cons n rest ih =>
    intro saves0 tbl hnd hk habs hpres
    have hnmem : n ∉ rest := (List.nodup_cons.mp hnd).1
    have hrest : rest.Nodup := (List.nodup_cons.mp hnd).2
    obtain ⟨r, hr⟩ := Option.isSome_iff_exists.mp (hpres n (List.mem_cons_self n rest))
    have habs0 : alook n saves0 = none := habs n (List.mem_cons_self n rest)
    have hins : ainsert n r saves0 = saves0 ++ [(n, r)] := ainsert_of_absent n r saves0 habs0
    have hk2 : ((ainsert n r saves0).map Prod.fst).Nodup := by
      rw [hins, List.map_append]
      rw [List.nodup_append]
      refine ⟨hk, by simp, ?_⟩
      intro a ha hb
      simp at hb
      rw [hb] at ha
      exact ((alook_eq_none_iff n saves0).mp habs0) ha
    have habs2 : ∀ m, m ∈ rest → alook m (ainsert n r saves0) = none := by
      intro m hm
      rw [hins, alook_append]
      have h1 : alook m saves0 = none := habs m (List.mem_cons_of_mem n hm)
      rw [h1]
      have hne : ¬(n = m) := fun hc => hnmem (hc ▸ hm)
      simp [alook, hne]
    have hpres2 : ∀ m, m ∈ rest → (getRule (setRule tbl wid n constFalse) wid m).isSome := by
      intro m hm
      rw [getRule_setRule_isSome]
      exact hpres m (List.mem_cons_of_mem n hm)
    obtain ⟨saves, tbl2, heq, hkS, hlook, htbl⟩ :=
      ih (ainsert n r saves0) (setRule tbl wid n constFalse) hrest hk2 habs2 hpres2
    refine ⟨saves, tbl2, ?_, hkS, ?_, ?_⟩
    · unfold lockOne
      rw [hr]
      exact heq
    · intro n2
      by_cases h2 : n2 ∈ rest
      · have hne : ¬(n2 = n) := fun hc => hnmem (hc ▸ h2)
        rw [hlook n2, if_pos h2, if_pos (List.mem_cons_of_mem n h2)]
        rw [getRule_setRule]
        simp [hne]
      · by_cases h3 : n2 = n
        · subst h3
          rw [hlook n2, if_neg h2, if_pos (List.mem_cons_self n2 rest)]
          rw [hins, alook_append, habs0]
          simp [alook, hr]
        · have h4 : n2 ∉ n :: rest := by
            intro hc
            rcases List.mem_cons.mp hc with hc1 | hc2
            · exact h3 hc1
            · exact h2 hc2
          rw [hlook n2, if_neg h2, if_neg h4]
          rw [hins, alook_append]
          cases hcc : alook n2 saves0 with
          | some v => rfl
          | none =>
            have hne : ¬(n = n2) := fun hc => h3 hc.symm
            simp [alook, hne]
    · intro wid2 n2
      rw [htbl wid2 n2]
      by_cases h2 : wid2 = wid ∧ n2 ∈ rest
      · rw [if_pos h2, if_pos ⟨h2.1, List.mem_cons_of_mem n h2.2⟩]
      · rw [if_neg h2, getRule_setRule]
        by_cases h3 : wid2 = wid ∧ n2 ∈ n :: rest
        · rw [if_pos h3]
          have h4 : n2 = n := by
            rcases List.mem_cons.mp h3.2 with hc1 | hc2
            · exact hc1
            · exact absurd ⟨h3.1, hc2⟩ h2
          rw [if_pos ⟨h3.1, h4, hpres n (List.mem_cons_self n rest)⟩]
        · rw [if_neg h3]
          have h4 : ¬(wid2 = wid ∧ n2 = n ∧ (getRule tbl wid n).isSome = true) := by
            rintro ⟨ha, hb, -⟩
            exact h3 ⟨ha, hb ▸ List.mem_cons_self n rest⟩
          rw [if_neg h4]

theorem unlockOne_pointwise (wid : Nat) :
    ∀ (saves : SavedRules) (tbl : WTable),
      (saves.map Prod.fst).Nodup →
      (∀ p, p ∈ saves → (getRule tbl wid p.1).isSome) →
      ∃ tbl2, unlockOne wid saves tbl = Except.ok tbl2 ∧
        ∀ wid2 n2, getRule tbl2 wid2 n2 =
          if wid2 = wid ∧ (alook n2 saves).isSome then alook n2 saves
          else getRule tbl wid2 n2 := by
  intro saves
  induction saves with
  | nil =>
    intro tbl _ _
    refine ⟨tbl, rfl, ?_⟩
    intro wid2 n2
    simp [alook]
  | cons p rest ih =>
    intro tbl hk hpres
    obtain ⟨n, r⟩ := p
    have hnmem : n ∉ rest.map Prod.fst := by
      have := List.nodup_cons.mp hk
      simpa using this.1
    obtain ⟨r0, hr0⟩ := Option.isSome_iff_exists.mp
      (hpres (n, r) (List.mem_cons_self (n, r) rest))
    have hpres2 : ∀ p2, p2 ∈ rest → (getRule (setRule tbl wid n r) wid p2.1).isSome := by
      intro p2 hp2
      rw [getRule_setRule_isSome]
      exact hpres p2 (List.mem_cons_of_mem (n, r) hp2)
    obtain ⟨tbl2, heq, htbl⟩ := ih (setRule tbl wid n r) (List.nodup_cons.mp hk).2 hpres2
    refine ⟨tbl2, ?_, ?_⟩
    · unfold unlockOne
      rw [hr0]
      exact heq
    · intro wid2 n2
      rw [htbl wid2 n2]
      by_cases h2 : n2 = n
      · subst h2
        have habs : alook n2 rest = none := (alook_eq_none_iff n2 rest).mpr hnmem
        rw [habs]
        have hccons : alook n2 ((n2, r) :: rest) = some r := by simp [alook]
        rw [hccons]
        simp only [Option.isSome_none, Bool.false_eq_true, and_false, if_false,
          Option.isSome_some, and_true]
        rw [getRule_setRule]
        by_cases h3 : wid2 = wid
        · subst h3
          rw [if_pos ⟨rfl, rfl, hpres (n2, r) (List.mem_cons_self (n2, r) rest)⟩, if_pos rfl]
        · rw [if_neg (by rintro ⟨hc, -⟩; exact h3 hc), if_neg h3]
      · have hccons : alook n2 ((n, r) :: rest) = alook n2 rest := by
          have hne : ¬(n = n2) := fun hc => h2 hc.symm
          simp [alook, hne]
        rw [hccons, getRule_setRule]
        by_cases h3 : wid2 = wid ∧ (alook n2 rest).isSome
        · rw [if_pos h3, if_pos h3]
        · rw [if_neg h3, if_neg h3,
            if_neg (by rintro ⟨-, hb, -⟩; exact h2 hb)]

theorem lockGo_unlock (names : List String) (hnames : names.Nodup) :
    ∀ (sl : List Nat) (idx : Nat) (tbl : WTable),
      sl.Nodup →
      (∀ wid, wid ∈ sl → ∀ n, n ∈ names → (getRule tbl wid n).isSome) →
      ∃ cl tbl2, lockGo names sl idx tbl = Except.ok (cl, tbl2) ∧
        (∀ wid2 n2, getRule tbl2 wid2 n2 =
          if wid2 ∈ sl ∧ n2 ∈ names then some constFalse else getRule tbl wid2 n2) ∧
        ∀ (slFull : List Nat) (tblY : WTable),
          (∀ k wid, sl.get? k = some wid → slFull.get? (idx + k) = some wid) →
          (∀ wid, wid ∈ sl → ∀ n, getRule tblY wid n = getRule tbl2 wid n) →
          ∃ tblZ, unlock_category_entrances tblY cl slFull = Except.ok tblZ ∧
            (∀ wid, wid ∈ sl → ∀ n, getRule tblZ wid n = getRule tbl wid n) ∧
            (∀ wid2, wid2 ∉ sl → ∀ n, getRule tblZ wid2 n = getRule tblY wid2 n) := by
  intro sl
  induction sl with
  | nil =>
    intro idx tbl _ _
    refine ⟨[], tbl, rfl, by intro wid2 n2; simp, ?_⟩
    intro slFull tblY _ _
    refine ⟨tblY, rfl, ?_, ?_⟩
    · intro wid hw; cases hw
    · intro wid2 _ n; rfl
  | cons w rest ih =>
    intro idx tbl hnd hpres
    have hwrest : w ∉ rest := (List.nodup_cons.mp hnd).1
    have hndr : rest.Nodup := (List.nodup_cons.mp hnd).2
    obtain ⟨saves, tbl1, heq1, hkS, hlook, htbl1⟩ :=
      lockOne_pointwise w names [] tbl hnames (by simp) (by intro n _; rfl)
        (fun n hn => hpres w (List.mem_cons_self w rest) n hn)
    have hpres1 : ∀ wid, wid ∈ rest → ∀ n, n ∈ names → (getRule tbl1 wid n).isSome := by
      intro wid hw n hn
      rw [htbl1 wid n]
      have hne : ¬(wid = w ∧ n ∈ names) := by
        rintro ⟨hc, -⟩
        exact hwrest (hc ▸ hw)
      rw [if_neg hne]
      exact hpres wid (List.mem_cons_of_mem w hw) n hn
    obtain ⟨cl, tbl2, heq2, htbl2, hunlock⟩ := ih (idx + 1) tbl1 hndr hpres1
    refine ⟨(idx, saves) :: cl, tbl2, ?_, ?_, ?_⟩
    · unfold lockGo
      simp [heq1, heq2]
    · intro wid2 n2
      rw [htbl2 wid2 n2]
      by_cases h2 : wid2 ∈ rest ∧ n2 ∈ names
      · rw [if_pos h2, if_pos ⟨List.mem_cons_of_mem w h2.1, h2.2⟩]
      · rw [if_neg h2, htbl1 wid2 n2]
        by_cases h3 : wid2 = w ∧ n2 ∈ names
        · rw [if_pos h3, if_pos ⟨h3.1 ▸ List.mem_cons_self w rest, h3.2⟩]
        · rw [if_neg h3]
          have h4 : ¬(wid2 ∈ w :: rest ∧ n2 ∈ names) := by
            rintro ⟨ha, hb⟩
            rcases List.mem_cons.mp ha with hc1 | hc2
            · exact h3 ⟨hc1, hb⟩
            · exact h2 ⟨hc2, hb⟩
          rw [if_neg h4]
    · intro slFull tblY hsl hagree
      have hidx : slFull.get? idx = some w := by
        have := hsl 0 w (by simp)
        rwa [Nat.add_zero] at this
      have hpresY : ∀ p, p ∈ saves → (getRule tblY w p.1).isSome := by
        intro p hp
        have hmem : (alook p.1 saves).isSome := alook_isSome_of_mem p.1 p.2 saves (by
          cases p; exact hp)
        have hpn : p.1 ∈ names := by
          by_contra hc
          rw [hlook p.1, if_neg hc] at hmem
          simp [alook] at hmem
        rw [hagree w (List.mem_cons_self w rest) p.1, htbl2 w p.1]
        by_cases h5 : w ∈ rest ∧ p.1 ∈ names
        · rw [if_pos h5]; rfl
        · rw [if_neg h5, htbl1 w p.1, if_pos ⟨rfl, hpn⟩]; rfl
      obtain ⟨tblY1, hequ, htblY1⟩ := unlockOne_pointwise w saves tblY hkS hpresY
      have hY1w : ∀ n, getRule tblY1 w n = getRule tbl w n := by
        intro n
        rw [htblY1 w n]
        by_cases h5 : (alook n saves).isSome
        · rw [if_pos ⟨rfl, h5⟩]
          rw [hlook n] at h5 ⊢
          by_cases h6 : n ∈ names
          · rw [if_pos h6]
          · rw [if_neg h6] at h5
            simp [alook] at h5
        · rw [if_neg (by rintro ⟨-, hb⟩; exact h5 hb)]
          rw [hagree w (List.mem_cons_self w rest) n, htbl2 w n]
          have h6 : n ∉ names := by
            by_contra hc
            rw [hlook n, if_pos hc] at h5
            exact h5 (hpres w (List.mem_cons_self w rest) n hc)
          rw [if_neg (by rintro ⟨-, hb⟩; exact h6 hb), htbl1 w n,
            if_neg (by rintro ⟨-, hb⟩; exact h6 hb)]
      have hY1other : ∀ wid2, wid2 ≠ w → ∀ n, getRule tblY1 wid2 n = getRule tblY wid2 n := by
        intro wid2 hne n
        rw [htblY1 wid2 n, if_neg (by rintro ⟨ha, -⟩; exact hne ha)]
      obtain ⟨tblZ, hequ2, hZrest, hZother⟩ := hunlock slFull tblY1
        (by
          intro k wid hk
          have := hsl (k + 1) wid (by simpa using hk)
          have e : idx + (k + 1) = idx + 1 + k := by omega
          rwa [e] at this)
        (by
          intro wid hw n
          have hne : wid ≠ w := fun hc => hwrest (hc ▸ hw)
          rw [hY1other wid hne n]
          exact hagree wid (List.mem_cons_of_mem w hw) n)
      refine ⟨tblZ, ?_, ?_, ?_⟩
      · unfold unlock_category_entrances
        have hidx2 : slFull[idx]? = some w := by simpa using hidx
        simp [hidx2, hequ, hequ2]
      · intro wid hw n
        rcases List.mem_cons.mp hw with h1 | h2
        · subst h1
          have hne : wid ∉ rest := hwrest
          rw [hZother wid hne n]
          exact hY1w n
        · rw [hZrest wid h2 n, htbl1 wid n,
            if_neg (by rintro ⟨ha, -⟩; exact hwrest (ha ▸ h2))]
      · intro wid2 hw2 n
        have h1 : wid2 ∉ rest := fun hc => hw2 (List.mem_cons_of_mem w hc)
        have h2 : wid2 ≠ w := fun hc => hw2 (hc ▸ List.mem_cons_self w rest)
        rw [hZother wid2 h1 n]
        exact hY1other wid2 h2 n

/-- C3 (amended): for every goal category whose lock-entrance names are
pairwise distinct and every list of states referencing pairwise distinct
worlds in which every lock name resolves, lock_category_entrances
followed by unlock_category_entrances with the returned lock map and the
same state list leaves every entrance's access predicate equal to its
pre-lock value, and a category with no lock entrances causes no predicate
change at all. (Without the distinctness conditions the restoration
fails; see the counterexample below.) -/
theorem lock_unlock_restores (tbl : WTable) (cat : GoalCategory) (sl : List Nat)
    (hnames : ∀ names, cat.lock_entrances = some names → names.Nodup)
    (hsl : sl.Nodup)
    (hpres : ∀ names, cat.lock_entrances = some names →
      ∀ wid, wid ∈ sl → ∀ n, n ∈ names → (getRule tbl wid n).isSome) :
    ∃ cl tbl2 tbl3, lock_category_entrances tbl cat sl = Except.ok (cl, tbl2) ∧
      unlock_category_entrances tbl2 cl sl = Except.ok tbl3 ∧
      (∀ wid n, getRule tbl3 wid n = getRule tbl wid n) ∧
      (cat.lock_entrances = none → tbl2 = tbl ∧ tbl3 = tbl) := by
  cases hle : cat.lock_entrances with
  | none =>
    refine ⟨[], tbl, tbl, ?_, rfl, fun wid n => rfl, fun _ => ⟨rfl, rfl⟩⟩
    unfold lock_category_entrances
    rw [hle]
  | some names =>
    obtain ⟨cl, tbl2, heq, htbl2, hunlock⟩ :=
      lockGo_unlock names (hnames names hle) sl 0 tbl hsl (hpres names hle)
    obtain ⟨tblZ, hequ, hZin, hZout⟩ := hunlock sl tbl2
      (by intro k wid hk; rwa [Nat.zero_add])
      (by intro wid _ n; rfl)
    refine ⟨cl, tbl2, tblZ, ?_, hequ, ?_, ?_⟩
    · unfold lock_category_entrances
      rw [hle]
      exact heq
    · intro wid n
      by_cases h : wid ∈ sl
      · exact hZin wid h n
      · rw [hZout wid h n, htbl2 wid n, if_neg (by rintro ⟨ha, -⟩; exact h ha)]
    · intro hc
      exact Option.noConfusion hc

/-- Access rule fixture for the C3 witness and counterexample: a rule
that answers true. -/
def lockSampleRule : AccessRule := fun _ => true

/-- World table fixture: one world with a single entrance E. -/
def lockSampleTable : WTable :=
  [{ id := 0, entrances := [{ name := "E", access_rule := lockSampleRule }] }]

/-- Category fixture with a single lock entrance. -/
def lockSampleCat : GoalCategory :=
  { name := "c", priority := 1, lock_locations := [], lock_entrances := some ["E"],
    goals := [], goal_count := 0, minimum_goals := 0, weight := 0, goal_cache := [] }

/-- Witness for the amended C3: the round trip on the concrete table,
with every hypothesis discharged on the concrete values. -/
theorem lock_unlock_restores_witness :
    ∃ cl tbl2 tbl3,
      lock_category_entrances lockSampleTable lockSampleCat [0] = Except.ok (cl, tbl2) ∧
      unlock_category_entrances tbl2 cl [0] = Except.ok tbl3 ∧
      (∀ wid n, getRule tbl3 wid n = getRule lockSampleTable wid n) ∧
      (lockSampleCat.lock_entrances = none → tbl2 = lockSampleTable ∧ tbl3 = lockSampleTable) :=
  lock_unlock_restores lockSampleTable lockSampleCat [0]
    (by
      intro names h
      injection h with h
      rw [← h]
      decide)
    (by decide)
    (by
      intro names h wid hw n hn
      injection h with h
      subst h
      simp at hw
      subst hw
      simp at hn
      subst hn
      rfl)

/-- Category fixture naming the same lock entrance twice. -/
def lockDupCat : GoalCategory :=
  { name := "c", priority := 1, lock_locations := [], lock_entrances := some ["E", "E"],
    goals := [], goal_count := 0, minimum_goals := 0, weight := 0, goal_cache := [] }

/-- The behaviour of entrance E after locking and unlocking lockDupCat:
the second pass over the duplicated name saves the already-disabled
predicate, so the unlock writes constant false back. -/
def lockDupResult : Option Bool :=
  match lock_category_entrances lockSampleTable lockDupCat [0] with
  | Except.error _ => none
  | Except.ok (cl, tbl1) =>
    match unlock_category_entrances tbl1 cl [0] with
    | Except.error _ => none
    | Except.ok tbl2 => (getRule tbl2 0 "E").map (fun r => r 0)

/-- Counterexample for C3 as stated: for the category that lists lock
entrance E twice, lock followed by unlock does not restore the pre-lock
predicate of E — the restored rule answers false where the original
answered true. -/
theorem lock_unlock_not_restoring :
    lockDupResult = some false ∧
      (getRule lockSampleTable 0 "E").map (fun r => r 0) = some true :=
  ⟨rfl, rfl⟩

/-- A goal-name-to-world-id-list dictionary (the per-category payload of
the ValidGoals structure returned by the search engine). -/
abbrev GoalWids := List (String × List Nat)

/-- A category-name-to-goal dictionary of the same shape as the
reachable_goals argument and the category part of beatable_goals
results. -/
abbrev CatGoalWids := List (String × GoalWids)

/-- The result shape of Search.beatable_goals: the per-category goal
dictionaries plus the dedicated way-of-the-hero entry, which the source
stores under the reserved key and search_goals reads only in
way-of-the-hero mode. -/
structure VG where
  cats : CatGoalWids
  woth : List Nat

/-- The nested required-locations dictionary of search_goals restricted
to the category entries: category name, goal name and world id lead to
the recorded (location, weight, weight) tuples; missing keys behave as
empty lists (defaultdict semantics). -/
abbrev ReqMap := String → String → Nat → List (Location × Nat × Nat)

/-- The external search engine as search_goals observes it, together with
the world fixtures it reads. The collected state type is abstract; the
theorems below hold for every behaviour of these oracles.
beatableGoals col loc models the call search.beatable_goals(categories)
made while the item of loc is detached from it (the source sets
location.item to None, queries, and restores the saved item, so the
query is a function of the collected state and the detached location);
trace is the sequence of locations yielded by
search.iter_reachable_locations(all_locations); hintExclusions gives the
per-world hint exclusion list; itemAlias is the item-table alias lookup
used by Goal.requires. -/
structure SGEnv (σ : Type) where
  stateWorldIds : List Nat
  itemAlias : String → Option String
  beatableGoals : σ → Location → VG
  collect : σ → Item → σ
  trace : List Location
  hintExclusions : Nat → List String

/-- The evolving state of one search_goals run: the required-locations
entries recorded so far, the flat way-of-the-hero list, the priority-
locations map (world id and location name to owning category name), the
goal and category weights (keyed by category and goal name, which is how
the output identifies goals), the collected search state, the locations
on which maybe_set_misc_hints has been called, and the remaining
locations not yet yielded by the frontier. -/
structure SGState (σ : Type) where
  req : ReqMap
  woth : List Location
  priority : Nat → String → Option String
  gW : String → String → Nat
  cW : String → Nat
  col : σ
  misc : List Location
  remaining : List Location

/-- The weight tuple recorded for a location: zero weights when the
location is always hinted or excluded from hints in its world, and unit
weights otherwise. -/
def locWeights (always : List String) (hintExcl : Nat → List String) (loc : Location) :
    Location × Nat × Nat :=
  if loc.name ∈ always ∨ loc.name ∈ hintExcl loc.world_id then (loc, 0, 0) else (loc, 1, 1)

/-- Appending one tuple under required_locations[c][g][w]. -/
def reqAppend (m : ReqMap) (c g : String) (w : Nat) (t : Location × Nat × Nat) : ReqMap :=
  fun c2 g2 w2 => if c2 = c ∧ g2 = g ∧ w2 = w then m c2 g2 w2 ++ [t] else m c2 g2 w2

/-- The hintable world ids for one goal at one location: the world ids
of the state list (as a set) minus the worlds where the goal is still
beatable in the counterfactual, intersected with the worlds where the
goal was reachable at baseline (invalid_states and hintable_states of
the source; Python materialises these as hash sets, whose iteration
order is arbitrary — only the resulting per-world appends matter, one
per distinct world id, which this list form reproduces). -/
def hintable_states (worldIds validWids reachWids : List Nat) : List Nat :=
  (worldIds.dedup.filter (fun w => w ∉ validWids)).filter (fun w => w ∈ reachWids)

/-- The body of the goal loop of search_goals (lines 346-370 of the
source) for one goal of one category at the currently detached
location. -/
def processGoal {σ : Type} (env : SGEnv σ) (always : List String) (valid : VG)
    (reach : CatGoalWids) (loc : Location) (cat : GoalCategory) (goal : Goal)
    (st : SGState σ) : SGState σ :=
  match alook cat.name valid.cats, alook cat.name reach with
  | some vcat, some rcat =>
    match alook goal.name vcat, alook goal.name rcat with
    | some validWids, some reachWids =>
      if (st.priority loc.world_id loc.name = none ∨
            st.priority loc.world_id loc.name = some cat.name)
          ∧ goalRequires env.itemAlias goal loc.item.name = false then
        if hintable_states env.stateWorldIds validWids reachWids = [] then st
        else
          { st with
            req := (hintable_states env.stateWorldIds validWids reachWids).foldl
              (fun m w => reqAppend m cat.name goal.name w
                (locWeights always env.hintExclusions loc)) st.req,
            gW := fun c g => if c = cat.name ∧ g = goal.name then 1 else st.gW c g,
            cW := fun c => if c = cat.name then 1 else st.cW c,
            priority := fun wid n =>
              if wid = loc.world_id ∧ n = loc.name then some cat.name else st.priority wid n }
      else st
    | _, _ => st
  | _, _ => st

/-- The category loop of search_goals: a category is skipped when it is
absent from reachable_goals or its reachable-goal dictionary is empty. -/
def processCategory {σ : Type} (env : SGEnv σ) (always : List String) (valid : VG)
    (reach : CatGoalWids) (loc : Location) (st : SGState σ) (cat : GoalCategory) :
    SGState σ :=
  match alook cat.name reach with
  | some rcat =>
    if rcat = [] then st
    else cat.goals.foldl (fun s g => processGoal env always valid reach loc cat g s) st
  | none => st

/-- The body of the frontier loop of search_goals for one yielded
location: the counterfactual check and recording when the location is an
eligible item location, the way-of-the-hero append, the misc-hint mark,
the removal from the remaining list and the collection of the item into
the live search state when it has a solver id. -/
def processLocation {σ : Type} (env : SGEnv σ) (categories : List GoalCategory)
    (reach : CatGoalWids) (item_locations : List Location) (always : List String)
    (search_woth : Bool) (st : SGState σ) (loc : Location) : SGState σ :=
  let st1 :=
    if loc ∈ item_locations then
      let valid := env.beatableGoals st.col loc
      let st2 := categories.foldl (processCategory env always valid reach loc) st
      if search_woth ∧ valid.woth = [] then { st2 with woth := st2.woth ++ [loc] } else st2
    else st
  let st3 := { st1 with misc := st1.misc ++ [loc], remaining := st1.remaining.erase loc }
  if loc.item.solver_id.isSome then { st3 with col := env.collect st3.col loc.item } else st3

/-- The result of one search_goals run. The reserved way-of-the-hero key
of the returned dictionary is kept apart from the category entries (the
embedding assumes no goal category uses the reserved name, which the
orchestrator guarantees); it is present exactly when the search ran in
way-of-the-hero mode and holds a flat location list. -/
structure SGResult (σ : Type) where
  req : ReqMap
  woth : Option (List Location)
  priority : Nat → String → Option String
  gW : String → String → Nat
  cW : String → Nat
  misc : List Location
  col : σ

/-- search_goals: folds the frontier trace through processLocation
starting from an empty required-locations dictionary, the caller's
priority map and the current goal and category weights, then marks every
remaining (never yielded) location for miscellaneous hints. -/
def search_goals {σ : Type} (env : SGEnv σ) (categories : List GoalCategory)
    (reach : CatGoalWids) (col0 : σ) (priority0 : Nat → String → Option String)
    (all_locations item_locations : List Location) (always : List String)
    (gW0 : String → String → Nat) (cW0 : String → Nat) (search_woth : Bool) :
    SGResult σ :=
  let st0 : SGState σ :=
    { req := fun _ _ _ => [], woth := [], priority := priority0, gW := gW0, cW := cW0,
      col := col0, misc := [], remaining := all_locations }
  let stF := env.trace.foldl
    (processLocation env categories reach item_locations always search_woth) st0
  { req := stF.req, woth := if search_woth then some stF.woth else none,
    priority := stF.priority, gW := stF.gW, cW := stF.cW,
    misc := stF.misc ++ stF.remaining, col := stF.col }

theorem mem_reqFold (c g : String) (t0 : Location × Nat × Nat) :
    ∀ (l : List Nat) (m : ReqMap) (c2 g2 : String) (w2 : Nat) (t : Location × Nat × Nat),
      t ∈ (l.foldl (fun m2 w => reqAppend m2 c g w t0) m) c2 g2 w2 →
      t ∈ m c2 g2 w2 ∨ (c2 = c ∧ g2 = g ∧ t = t0) := by
  intro l
  induction l with
  | nil =>
    intro m c2 g2 w2 t h
    exact Or.inl h
  | cons w l ih =>
    intro m c2 g2 w2 t h
    rcases ih _ c2 g2 w2 t h with h1 | h2
    · simp only [reqAppend] at h1
      by_cases hc : c2 = c ∧ g2 = g ∧ w2 = w
      · rw [if_pos hc] at h1
        rcases List.mem_append.mp h1 with ha | hb
        · exact Or.inl ha
        · simp at hb
          exact Or.inr ⟨hc.1, hc.2.1, hb⟩
      · rw [if_neg hc] at h1
        exact Or.inl h1
    · exact Or.inr h2

theorem mem_processGoal_req {σ : Type} (env : SGEnv σ) (always : List String) (valid : VG)
    (reach : CatGoalWids) (loc : Location) (cat : GoalCategory) (goal : Goal)
    (st : SGState σ) (c g : String) (w : Nat) (t : Location × Nat × Nat)
    (h : t ∈ (processGoal env always valid reach loc cat goal st).req c g w) :
    t ∈ st.req c g w ∨
      (c = cat.name ∧ g = goal.name ∧ t = locWeights always env.hintExclusions loc ∧
        goalRequires env.itemAlias goal loc.item.name = false) := by
  unfold processGoal at h
  split at h
  · split at h
    · split at h
      · rename_i hcond
        split at h
        · exact Or.inl h
        · rcases mem_reqFold cat.name goal.name _ _ _ c g w t h with h1 | h2
          · exact Or.inl h1
          · exact Or.inr ⟨h2.1, h2.2.1, h2.2.2, hcond.2⟩
      · exact Or.inl h
    · exact Or.inl h
  · exact Or.inl h

theorem mem_goalsFold_req {σ : Type} (env : SGEnv σ) (always : List String) (valid : VG)
    (reach : CatGoalWids) (loc : Location) (cat : GoalCategory) (c g : String) (w : Nat)
    (t : Location × Nat × Nat) :
    ∀ (goals : List Goal) (st : SGState σ),
      t ∈ (goals.foldl (fun s g2 => processGoal env always valid reach loc cat g2 s) st).req
          c g w →
      t ∈ st.req c g w ∨
        ∃ goal, goal ∈ goals ∧ c = cat.name ∧ g = goal.name ∧
          t = locWeights always env.hintExclusions loc ∧
          goalRequires env.itemAlias goal loc.item.name = false := by
  intro goals
  induction goals with
  | nil =>
    intro st h
    exact Or.inl h
  | cons goal rest ih =>
    intro st h
    rw [List.foldl_cons] at h
    rcases ih _ h with h1 | h2
    · rcases mem_processGoal_req env always valid reach loc cat goal st c g w t h1
        with ha | hb
      · exact Or.inl ha
      · exact Or.inr ⟨goal, List.mem_cons_self goal rest, hb.1, hb.2.1, hb.2.2.1, hb.2.2.2⟩
    · obtain ⟨goal2, hg2, hrest⟩ := h2
      exact Or.inr ⟨goal2, List.mem_cons_of_mem goal hg2, hrest⟩

theorem mem_processCategory_req {σ : Type} (env : SGEnv σ) (always : List String)
    (valid : VG) (reach : CatGoalWids) (loc : Location) (cat : GoalCategory)
    (st : SGState σ) (c g : String) (w : Nat) (t : Location × Nat × Nat)
    (h : t ∈ (processCategory env always valid reach loc st cat).req c g w) :
    t ∈ st.req c g w ∨
      ∃ goal, goal ∈ cat.goals ∧ c = cat.name ∧ g = goal.name ∧
        t = locWeights always env.hintExclusions loc ∧
        goalRequires env.itemAlias goal loc.item.name = false := by
  unfold processCategory at h
  split at h
  · split at h
    · exact Or.inl h
    · exact mem_goalsFold_req env always valid reach loc cat c g w t cat.goals st h
  · exact Or.inl h

theorem mem_catsFold_req {σ : Type} (env : SGEnv σ) (always : List String) (valid : VG)
    (reach : CatGoalWids) (loc : Location) (c g : String) (w : Nat)
    (t : Location × Nat × Nat) :
    ∀ (cats : List GoalCategory) (st : SGState σ),
      t ∈ (cats.foldl (processCategory env always valid reach loc) st).req c g w →
      t ∈ st.req c g w ∨
        ∃ cat goal, cat ∈ cats ∧ goal ∈ cat.goals ∧ c = cat.name ∧ g = goal.name ∧
          t = locWeights always env.hintExclusions loc ∧
          goalRequires env.itemAlias goal loc.item.name = false := by
  intro cats
  induction cats with
  | nil =>
    intro st h
    exact Or.inl h
  | cons cat rest ih =>
    intro st h
    rw [List.foldl_cons] at h
    rcases ih _ h with h1 | h2
    · rcases mem_processCategory_req env always valid reach loc cat st c g w t h1
        with ha | hb
      · exact Or.inl ha
      · obtain ⟨goal, hgoal, hrest⟩ := hb
        exact Or.inr ⟨cat, goal, List.mem_cons_self cat rest, hgoal, hrest⟩
    · obtain ⟨cat2, goal2, hc2, hrest⟩ := h2
      exact Or.inr ⟨cat2, goal2, List.mem_cons_of_mem cat hc2, hrest⟩

theorem mem_processLocation_req {σ : Type} (env : SGEnv σ) (categories : List GoalCategory)
    (reach : CatGoalWids) (item_locations : List Location) (always : List String)
    (search_woth : Bool) (st : SGState σ) (loc : Location) (c g : String) (w : Nat)
    (t : Location × Nat × Nat)
    (h : t ∈ (processLocation env categories reach item_locations always search_woth
        st loc).req c g w) :
    t ∈ st.req c g w ∨
      ∃ cat goal, cat ∈ categories ∧ goal ∈ cat.goals ∧ c = cat.name ∧ g = goal.name ∧
        t = locWeights always env.hintExclusions loc ∧
        goalRequires env.itemAlias goal loc.item.name = false := by
  simp only [processLocation] at h
  repeat' split at h
  all_goals try dsimp only at h
  all_goals
    first
      | exact Or.inl h
      | exact mem_catsFold_req env always _ reach loc c g w t categories st h

theorem mem_traceFold_req {σ : Type} (env : SGEnv σ) (categories : List GoalCategory)
    (reach : CatGoalWids) (item_locations : List Location) (always : List String)
    (search_woth : Bool) (c g : String) (w : Nat) (t : Location × Nat × Nat) :
    ∀ (trace : List Location) (st : SGState σ),
      t ∈ (trace.foldl (processLocation env categories reach item_locations always
          search_woth) st).req c g w →
      t ∈ st.req c g w ∨
        ∃ loc cat goal, loc ∈ trace ∧ cat ∈ categories ∧ goal ∈ cat.goals ∧
          c = cat.name ∧ g = goal.name ∧ t = locWeights always env.hintExclusions loc ∧
          goalRequires env.itemAlias goal loc.item.name = false := by
  intro trace
  induction trace with
  | nil =>
    intro st h
    exact Or.inl h
  | cons loc rest ih =>
    intro st h
    rw [List.foldl_cons] at h
    rcases ih _ h with h1 | h2
    · rcases mem_processLocation_req env categories reach item_locations always
        search_woth st loc c g w t h1 with ha | hb
      · exact Or.inl ha
      · obtain ⟨cat, goal, hrest⟩ := hb
        exact Or.inr ⟨loc, cat, goal, List.mem_cons_self loc rest, hrest⟩
    · obtain ⟨loc2, cat2, goal2, hl2, hrest⟩ := h2
      exact Or.inr ⟨loc2, cat2, goal2, List.mem_cons_of_mem loc hl2, hrest⟩

/-- The fields of the solver state that the goal and category loops never
touch. -/
def SameAux {σ : Type} (st st2 : SGState σ) : Prop :=
  st2.woth = st.woth ∧ st2.col = st.col ∧ st2.misc = st.misc ∧ st2.remaining = st.remaining

theorem sameAux_refl {σ : Type} (st : SGState σ) : SameAux st st := ⟨rfl, rfl, rfl, rfl⟩

theorem sameAux_trans {σ : Type} {a b c : SGState σ} (h1 : SameAux a b) (h2 : SameAux b c) :
    SameAux a c :=
  ⟨h2.1.trans h1.1, h2.2.1.trans h1.2.1, h2.2.2.1.trans h1.2.2.1, h2.2.2.2.trans h1.2.2.2⟩

theorem processGoal_sameAux {σ : Type} (env : SGEnv σ) (always : List String) (valid : VG)
    (reach : CatGoalWids) (loc : Location) (cat : GoalCategory) (goal : Goal)
    (st : SGState σ) : SameAux st (processGoal env always valid reach loc cat goal st) := by
  unfold processGoal
  repeat' split
  all_goals exact ⟨rfl, rfl, rfl, rfl⟩

theorem goalsFold_sameAux {σ : Type} (env : SGEnv σ) (always : List String) (valid : VG)
    (reach : CatGoalWids) (loc : Location) (cat : GoalCategory) :
    ∀ (goals : List Goal) (st : SGState σ),
      SameAux st (goals.foldl (fun s g2 => processGoal env always valid reach loc cat g2 s) st) := by
  intro goals
  induction goals with
  | nil => intro st; exact sameAux_refl st
  | cons goal rest ih =>
    intro st
    rw [List.foldl_cons]
    exact sameAux_trans (processGoal_sameAux env always valid reach loc cat goal st) (ih _)

theorem processCategory_sameAux {σ : Type} (env : SGEnv σ) (always : List String)
    (valid : VG) (reach : CatGoalWids) (loc : Location) (st : SGState σ)
    (cat : GoalCategory) : SameAux st (processCategory env always valid reach loc st cat) := by
  unfold processCategory
  split
  · split
    · exact sameAux_refl st
    · exact goalsFold_sameAux env always valid reach loc cat cat.goals st
  · exact sameAux_refl st

theorem catsFold_sameAux {σ : Type} (env : SGEnv σ) (always : List String) (valid : VG)
    (reach : CatGoalWids) (loc : Location) :
    ∀ (cats : List GoalCategory) (st : SGState σ),
      SameAux st (cats.foldl (processCategory env always valid reach loc) st) := by
  intro cats
  induction cats with
  | nil => intro st; exact sameAux_refl st
  | cons cat rest ih =>
    intro st
    rw [List.foldl_cons]
    exact sameAux_trans (processCategory_sameAux env always valid reach loc st cat) (ih _)

theorem mem_processLocation_woth {σ : Type} (env : SGEnv σ) (categories : List GoalCategory)
    (reach : CatGoalWids) (item_locations : List Location) (always : List String)
    (search_woth : Bool) (st : SGState σ) (loc : Location) (x : Location)
    (h : x ∈ (processLocation env categories reach item_locations always search_woth
        st loc).woth) :
    x ∈ st.woth ∨ x = loc := by
  have haux := catsFold_sameAux env always (env.beatableGoals st.col loc) reach loc
    categories st
  simp only [processLocation] at h
  repeat' split at h
  all_goals try dsimp only at h
  all_goals
    first
      | exact Or.inl h
      | (rw [haux.1] at h; exact Or.inl h)
      | (rcases List.mem_append.mp h with h1 | h2
         · rw [haux.1] at h1
           exact Or.inl h1
         · simp at h2
           exact Or.inr h2)

theorem processLocation_misc {σ : Type} (env : SGEnv σ) (categories : List GoalCategory)
    (reach : CatGoalWids) (item_locations : List Location) (always : List String)
    (search_woth : Bool) (st : SGState σ) (loc : Location) :
    (processLocation env categories reach item_locations always search_woth st loc).misc =
      st.misc ++ [loc] := by
  have haux := catsFold_sameAux env always (env.beatableGoals st.col loc) reach loc
    categories st
  simp only [processLocation]
  repeat' split
  all_goals try dsimp only
  all_goals rw [haux.2.2.1]

theorem processLocation_remaining {σ : Type} (env : SGEnv σ) (categories : List GoalCategory)
    (reach : CatGoalWids) (item_locations : List Location) (always : List String)
    (search_woth : Bool) (st : SGState σ) (loc : Location) :
    (processLocation env categories reach item_locations always search_woth
        st loc).remaining = st.remaining.erase loc := by
  have haux := catsFold_sameAux env always (env.beatableGoals st.col loc) reach loc
    categories st
  simp only [processLocation]
  repeat' split
  all_goals try dsimp only
  all_goals rw [haux.2.2.2]

theorem locWeights_fst (always : List String) (hintExcl : Nat → List String)
    (loc : Location) : (locWeights always hintExcl loc).1 = loc := by
  unfold locWeights
  split
  · rfl
  · rfl

/-- The priority-consistency invariant behind C1: every tuple already
recorded under a category name has its location claimed by that category
in the priority map. -/
def PrioInv {σ : Type} (st : SGState σ) : Prop :=
  ∀ c g w L a b, (L, a, b) ∈ st.req c g w → st.priority L.world_id L.name = some c

theorem processGoal_prioInv {σ : Type} (env : SGEnv σ) (always : List String) (valid : VG)
    (reach : CatGoalWids) (loc : Location) (cat : GoalCategory) (goal : Goal)
    (st : SGState σ) (hInv : PrioInv st) :
    PrioInv (processGoal env always valid reach loc cat goal st) := by
  unfold processGoal
  repeat' split
  all_goals try exact hInv
  rename_i hcond hempty
  intro c g w L a b hmem
  dsimp only at hmem ⊢
  rcases mem_reqFold cat.name goal.name _ _ _ c g w (L, a, b) hmem with h1 | h2
  · have hold := hInv c g w L a b h1
    by_cases hk : L.world_id = loc.world_id ∧ L.name = loc.name
    · rw [if_pos hk]
      rw [hk.1, hk.2] at hold
      rcases hcond.1 with hc | hc
      · rw [hold] at hc
        cases hc
      · rw [hold] at hc
        injection hc with hc
        rw [← hc]
    · rw [if_neg hk]
      exact hold
  · obtain ⟨hc1, hc2, ht⟩ := h2
    have hL : L = loc := by
      have := congrArg Prod.fst ht
      simpa [locWeights_fst] using this
    rw [hL, if_pos ⟨rfl, rfl⟩, hc1]

theorem goalsFold_prioInv {σ : Type} (env : SGEnv σ) (always : List String) (valid : VG)
    (reach : CatGoalWids) (loc : Location) (cat : GoalCategory) :
    ∀ (goals : List Goal) (st : SGState σ), PrioInv st →
      PrioInv (goals.foldl (fun s g2 => processGoal env always valid reach loc cat g2 s) st) := by
  intro goals
  induction goals with
  | nil => intro st h; exact h
  | cons goal rest ih =>
    intro st h
    rw [List.foldl_cons]
    exact ih _ (processGoal_prioInv env always valid reach loc cat goal st h)

theorem processCategory_prioInv {σ : Type} (env : SGEnv σ) (always : List String)
    (valid : VG) (reach : CatGoalWids) (loc : Location) (st : SGState σ)
    (cat : GoalCategory) (hInv : PrioInv st) :
    PrioInv (processCategory env always valid reach loc st cat) := by
  unfold processCategory
  split
  · split
    · exact hInv
    · exact goalsFold_prioInv env always valid reach loc cat cat.goals st hInv
  · exact hInv

theorem catsFold_prioInv {σ : Type} (env : SGEnv σ) (always : List String) (valid : VG)
    (reach : CatGoalWids) (loc : Location) :
    ∀ (cats : List GoalCategory) (st : SGState σ), PrioInv st →
      PrioInv (cats.foldl (processCategory env always valid reach loc) st) := by
  intro cats
  induction cats with
  | nil => intro st h; exact h
  | cons cat rest ih =>
    intro st h
    rw [List.foldl_cons]
    exact ih _ (processCategory_prioInv env always valid reach loc st cat h)

theorem processLocation_prioInv {σ : Type} (env : SGEnv σ) (categories : List GoalCategory)
    (reach : CatGoalWids) (item_locations : List Location) (always : List String)
    (search_woth : Bool) (st : SGState σ) (loc : Location) (hInv : PrioInv st) :
    PrioInv (processLocation env categories reach item_locations always search_woth
      st loc) := by
  have hFold := catsFold_prioInv env always (env.beatableGoals st.col loc) reach loc
    categories st hInv
  simp only [processLocation]
  repeat' split
  all_goals intro c g w L a b hmem
  all_goals dsimp only at hmem ⊢
  all_goals
    first
      | exact hInv c g w L a b hmem
      | exact hFold c g w L a b hmem

theorem traceFold_prioInv {σ : Type} (env : SGEnv σ) (categories : List GoalCategory)
    (reach : CatGoalWids) (item_locations : List Location) (always : List String)
    (search_woth : Bool) :
    ∀ (trace : List Location) (st : SGState σ), PrioInv st →
      PrioInv (trace.foldl (processLocation env categories reach item_locations always
        search_woth) st) := by
  intro trace
  induction trace with
  | nil => intro st h; exact h
  | cons loc rest ih =>
    intro st h
    rw [List.foldl_cons]
    exact ih _ (processLocation_prioInv env categories reach item_locations always
      search_woth st loc h)

/-- C1: in search_goals, for every location L and every world id w, L is
recorded in the required-locations output under at most one category
name for w: once a category has claimed the name of L in the priority
map for the world of L, every later different category skips L, so two
recorded tuples for the same location and world always carry the same
category name (in particular, of two categories processed in priority
order that could both claim L, only the first is credited). -/
theorem search_goals_no_double_credit {σ : Type} (env : SGEnv σ)
    (categories : List GoalCategory) (reach : CatGoalWids) (col0 : σ)
    (priority0 : Nat → String → Option String)
    (all_locations item_locations : List Location) (always : List String)
    (gW0 : String → String → Nat) (cW0 : String → Nat) (search_woth : Bool)
    (L : Location) (w : Nat) (c1 g1 c2 g2 : String) (a1 b1 a2 b2 : Nat)
    (h1 : (L, a1, b1) ∈ (search_goals env categories reach col0 priority0 all_locations
        item_locations always gW0 cW0 search_woth).req c1 g1 w)
    (h2 : (L, a2, b2) ∈ (search_goals env categories reach col0 priority0 all_locations
        item_locations always gW0 cW0 search_woth).req c2 g2 w) :
    c1 = c2 := by
  have hInv := traceFold_prioInv env categories reach item_locations always search_woth
    env.trace
    { req := fun _ _ _ => [], woth := [], priority := priority0, gW := gW0, cW := cW0,
      col := col0, misc := [], remaining := all_locations }
    (by intro c g w2 L2 a b hmem; simp at hmem)
  have e1 := hInv c1 g1 w L a1 b1 h1
  have e2 := hInv c2 g2 w L a2 b2 h2
  rw [e1] at e2
  exact Option.some.inj e2

/-- Location fixture for the solver witnesses. -/
def wLoc : Location :=
  { name := "L", world_id := 0, item := { name := "X", solver_id := none, world_id := 0 } }

/-- Goal fixture holding one hintable item spec. -/
def wGoal : Goal :=
  { world_id := 0, name := "g", hint_text := "h", color := "White",
    items := [{ name := "X", quantity := 1, minimum := 1, hintable := true }],
    locations := [], lock_locations := [], lock_entrances := [], required_locations := [],
    weight := 0, category := some "A", item_cache := [] }

/-- Category fixture owning the goal fixture. -/
def wCat : GoalCategory :=
  { name := "A", priority := 1, lock_locations := [], lock_entrances := none,
    goals := [wGoal], goal_count := 1, minimum_goals := 1, weight := 0, goal_cache := [] }

/-- Search-engine oracle fixture: one world, the goal reachable at
baseline but lost in every counterfactual. -/
def wEnv : SGEnv Nat :=
  { stateWorldIds := [0], itemAlias := fun _ => none,
    beatableGoals := fun _ _ => { cats := [("A", [("g", [])])], woth := [] },
    collect := fun s _ => s, trace := [wLoc], hintExclusions := fun _ => [] }

/-- The reachable-goals fixture. -/
def wReach : CatGoalWids := [("A", [("g", [0])])]

/-- The concrete solver run used by the witnesses. -/
def wRes : SGResult Nat :=
  search_goals wEnv [wCat] wReach 0 (fun _ _ => none) [wLoc] [wLoc] []
    (fun _ _ => 0) (fun _ => 0) false

/-- Witness for C1: the concrete run records the location, and the
theorem applied to that recording yields agreement of the category
names. -/
theorem search_goals_no_double_credit_witness :
    ((wLoc, 1, 1) ∈ wRes.req "A" "g" 0) ∧ "A" = "A" :=
  ⟨by decide,
    search_goals_no_double_credit wEnv [wCat] wReach 0 (fun _ _ => none) [wLoc] [wLoc] []
      (fun _ _ => 0) (fun _ => 0) false wLoc 0 "A" "g" "A" "g" 1 1 1 1
      (by decide) (by decide)⟩

/-- The weight invariant behind C6: any category and goal name pair that
owns a recorded tuple has both weights set to one. -/
def WeightInv {σ : Type} (st : SGState σ) : Prop :=
  ∀ c g, (∃ w t, t ∈ st.req c g w) → st.gW c g = 1 ∧ st.cW c = 1

theorem processGoal_weightInv {σ : Type} (env : SGEnv σ) (always : List String)
    (valid : VG) (reach : CatGoalWids) (loc : Location) (cat : GoalCategory) (goal : Goal)
    (st : SGState σ) (hInv : WeightInv st) :
    WeightInv (processGoal env always valid reach loc cat goal st) := by
  unfold processGoal
  repeat' split
  all_goals try exact hInv
  rename_i hcond hempty
  intro c g hex
  obtain ⟨w, t, hmem⟩ := hex
  dsimp only at hmem ⊢
  rcases mem_reqFold cat.name goal.name _ _ _ c g w t hmem with h1 | h2
  · have hold := hInv c g ⟨w, t, h1⟩
    constructor
    · by_cases hcg : c = cat.name ∧ g = goal.name
      · rw [if_pos hcg]
      · rw [if_neg hcg]
        exact hold.1
    · by_cases hc : c = cat.name
      · rw [if_pos hc]
      · rw [if_neg hc]
        exact hold.2
  · obtain ⟨hc1, hc2, -⟩ := h2
    exact ⟨by rw [if_pos ⟨hc1, hc2⟩], by rw [if_pos hc1]⟩

theorem goalsFold_weightInv {σ : Type} (env : SGEnv σ) (always : List String) (valid : VG)
    (reach : CatGoalWids) (loc : Location) (cat : GoalCategory) :
    ∀ (goals : List Goal) (st : SGState σ), WeightInv st →
      WeightInv (goals.foldl (fun s g2 => processGoal env always valid reach loc cat g2 s) st) := by
  intro goals
  induction goals with
  | nil => intro st h; exact h
  | cons goal rest ih =>
    intro st h
    rw [List.foldl_cons]
    exact ih _ (processGoal_weightInv env always valid reach loc cat goal st h)

theorem processCategory_weightInv {σ : Type} (env : SGEnv σ) (always : List String)
    (valid : VG) (reach : CatGoalWids) (loc : Location) (st : SGState σ)
    (cat : GoalCategory) (hInv : WeightInv st) :
    WeightInv (processCategory env always valid reach loc st cat) := by
  unfold processCategory
  split
  · split
    · exact hInv
    · exact goalsFold_weightInv env always valid reach loc cat cat.goals st hInv
  · exact hInv

theorem catsFold_weightInv {σ : Type} (env : SGEnv σ) (always : List String) (valid : VG)
    (reach : CatGoalWids) (loc : Location) :
    ∀ (cats : List GoalCategory) (st : SGState σ), WeightInv st →
      WeightInv (cats.foldl (processCategory env always valid reach loc) st) := by
  intro cats
  induction cats with
  | nil => intro st h; exact h
  | cons cat rest ih =>
    intro st h
    rw [List.foldl_cons]
    exact ih _ (processCategory_weightInv env always valid reach loc st cat h)

theorem processLocation_weightInv {σ : Type} (env : SGEnv σ)
    (categories : List GoalCategory) (reach : CatGoalWids)
    (item_locations : List Location) (always : List String) (search_woth : Bool)
    (st : SGState σ) (loc : Location) (hInv : WeightInv st) :
    WeightInv (processLocation env categories reach item_locations always search_woth
      st loc) := by
  have hFold := catsFold_weightInv env always (env.beatableGoals st.col loc) reach loc
    categories st hInv
  simp only [processLocation]
  repeat' split
  all_goals intro c g hex
  all_goals obtain ⟨w, t, hmem⟩ := hex
  all_goals dsimp only at hmem ⊢
  all_goals
    first
      | exact hInv c g ⟨w, t, hmem⟩
      | exact hFold c g ⟨w, t, hmem⟩

theorem traceFold_weightInv {σ : Type} (env : SGEnv σ) (categories : List GoalCategory)
    (reach : CatGoalWids) (item_locations : List Location) (always : List String)
    (search_woth : Bool) :
    ∀ (trace : List Location) (st : SGState σ), WeightInv st →
      WeightInv (trace.foldl (processLocation env categories reach item_locations always
        search_woth) st) := by
  intro trace
  induction trace with
  | nil => intro st h; exact h
  | cons loc rest ih =>
    intro st h
    rw [List.foldl_cons]
    exact ih _ (processLocation_weightInv env categories reach item_locations always
      search_woth st loc h)

/-- C6: whenever search_goals records a location as required for a
category, goal and world triple, the stored tuple's two weight values are
(0, 0) if the location's name is in the always-hinted set or in that
location's world's hint-exclusion set, and (1, 1) in every other case;
and in that same event the goal's weight and its category's weight are
both set to 1 (weights are keyed by the category and goal names under
which the output records them). -/
theorem search_goals_weights {σ : Type} (env : SGEnv σ) (categories : List GoalCategory)
    (reach : CatGoalWids) (col0 : σ) (priority0 : Nat → String → Option String)
    (all_locations item_locations : List Location) (always : List String)
    (gW0 : String → String → Nat) (cW0 : String → Nat) (search_woth : Bool)
    (c g : String) (w : Nat) (L : Location) (a b : Nat)
    (hmem : (L, a, b) ∈ (search_goals env categories reach col0 priority0 all_locations
        item_locations always gW0 cW0 search_woth).req c g w) :
    ((L.name ∈ always ∨ L.name ∈ env.hintExclusions L.world_id) → (a, b) = (0, 0)) ∧
    (¬(L.name ∈ always ∨ L.name ∈ env.hintExclusions L.world_id) → (a, b) = (1, 1)) ∧
    (search_goals env categories reach col0 priority0 all_locations item_locations always
      gW0 cW0 search_woth).gW c g = 1 ∧
    (search_goals env categories reach col0 priority0 all_locations item_locations always
      gW0 cW0 search_woth).cW c = 1 := by
  have hchar := mem_traceFold_req env categories reach item_locations always search_woth
    c g w (L, a, b) env.trace
    { req := fun _ _ _ => [], woth := [], priority := priority0, gW := gW0, cW := cW0,
      col := col0, misc := [], remaining := all_locations } hmem
  have hWInv := traceFold_weightInv env categories reach item_locations always search_woth
    env.trace
    { req := fun _ _ _ => [], woth := [], priority := priority0, gW := gW0, cW := cW0,
      col := col0, misc := [], remaining := all_locations }
    (by intro c2 g2 hex; obtain ⟨w2, t2, h0⟩ := hex; simp at h0)
  have hweights := hWInv c g ⟨w, (L, a, b), hmem⟩
  rcases hchar with h0 | ⟨loc, cat, goal, hltr, hcat, hgoal, hc, hg, ht, hreq⟩
  · simp at h0
  · have hL : L = loc := by
      have := congrArg Prod.fst ht
      simpa [locWeights_fst] using this
    subst hL
    refine ⟨?_, ?_, hweights.1, hweights.2⟩
    · intro hcnd
      rw [locWeights, if_pos hcnd] at ht
      have h1 := congrArg (fun p => p.2.1) ht
      have h2 := congrArg (fun p => p.2.2) ht
      simp at h1 h2
      rw [h1, h2]
    · intro hcnd
      rw [locWeights, if_neg hcnd] at ht
      have h1 := congrArg (fun p => p.2.1) ht
      have h2 := congrArg (fun p => p.2.2) ht
      simp at h1 h2
      rw [h1, h2]

/-- Witness for C6: in the concrete run the recorded tuple carries unit
weights, and the theorem applied to that recording yields the goal and
category weights. -/
theorem search_goals_weights_witness : wRes.gW "A" "g" = 1 ∧ wRes.cW "A" = 1 := by
  have h := search_goals_weights wEnv [wCat] wReach 0 (fun _ _ => none) [wLoc] [wLoc] []
    (fun _ _ => 0) (fun _ => 0) false "A" "g" 0 wLoc 1 1 (by decide)
  exact ⟨h.2.2.1, h.2.2.2⟩

theorem mem_traceFold_woth {σ : Type} (env : SGEnv σ) (categories : List GoalCategory)
    (reach : CatGoalWids) (item_locations : List Location) (always : List String)
    (search_woth : Bool) (x : Location) :
    ∀ (trace : List Location) (st : SGState σ),
      x ∈ (trace.foldl (processLocation env categories reach item_locations always
        search_woth) st).woth →
      x ∈ st.woth ∨ x ∈ trace := by
  intro trace
  induction trace with
  | nil =>
    intro st h
    exact Or.inl h
  | cons loc rest ih =>
    intro st h
    rw [List.foldl_cons] at h
    rcases ih _ h with h1 | h2
    · rcases mem_processLocation_woth env categories reach item_locations always
        search_woth st loc x h1 with ha | hb
      · exact Or.inl ha
      · exact Or.inr (hb ▸ List.mem_cons_self loc rest)
    · exact Or.inr (List.mem_cons_of_mem loc h2)

theorem traceFold_remaining {σ : Type} (env : SGEnv σ) (categories : List GoalCategory)
    (reach : CatGoalWids) (item_locations : List Location) (always : List String)
    (search_woth : Bool) :
    ∀ (trace : List Location) (st : SGState σ),
      (trace.foldl (processLocation env categories reach item_locations always
        search_woth) st).remaining =
      trace.foldl (fun r2 l => r2.erase l) st.remaining := by
  intro trace
  induction trace with
  | nil => intro st; rfl
  | cons loc rest ih =>
    intro st
    rw [List.foldl_cons, List.foldl_cons, ih,
      processLocation_remaining env categories reach item_locations always search_woth st loc]

theorem mem_foldl_erase (L : Location) :
    ∀ (tr r : List Location), L ∈ r → (∀ l, l ∈ tr → l ≠ L) →
      L ∈ tr.foldl (fun r2 l => r2.erase l) r := by
  intro tr
  induction tr with
  | nil =>
    intro r h _
    exact h
  | cons l rest ih =>
    intro r h hne
    rw [List.foldl_cons]
    refine ih _ ?_ (fun l2 hl2 => hne l2 (List.mem_cons_of_mem l hl2))
    have hLl : L ≠ l := fun hc => hne l (List.mem_cons_self l rest) (hc ▸ rfl)
    exact (List.mem_erase_of_ne hLl).mpr h

/-- C5: every location of the candidate list that the reachability
frontier never yields during search_goals appears in no required-
locations list and not in the way-of-the-hero list of the returned
mapping, but it is still marked miscellaneous-hintable after the
frontier is exhausted. -/
theorem search_goals_unreachable_location {σ : Type} (env : SGEnv σ)
    (categories : List GoalCategory) (reach : CatGoalWids) (col0 : σ)
    (priority0 : Nat → String → Option String)
    (all_locations item_locations : List Location) (always : List String)
    (gW0 : String → String → Nat) (cW0 : String → Nat) (search_woth : Bool)
    (L : Location) (hall : L ∈ all_locations) (htr : L ∉ env.trace) :
    (∀ c g w a b, (L, a, b) ∉ (search_goals env categories reach col0 priority0
        all_locations item_locations always gW0 cW0 search_woth).req c g w) ∧
    (∀ lw, (search_goals env categories reach col0 priority0 all_locations item_locations
        always gW0 cW0 search_woth).woth = some lw → L ∉ lw) ∧
    L ∈ (search_goals env categories reach col0 priority0 all_locations item_locations
        always gW0 cW0 search_woth).misc := by
  refine ⟨?_, ?_, ?_⟩
  · intro c g w a b hmem
    rcases mem_traceFold_req env categories reach item_locations always search_woth
      c g w (L, a, b) env.trace
      { req := fun _ _ _ => [], woth := [], priority := priority0, gW := gW0, cW := cW0,
        col := col0, misc := [], remaining := all_locations } hmem
      with h0 | ⟨loc, cat, goal, hltr, _, _, _, _, ht, _⟩
    · simp at h0
    · have hL : L = loc := by
        have := congrArg Prod.fst ht
        simpa [locWeights_fst] using this
      exact htr (hL ▸ hltr)
  · intro lw hlw hmemL
    simp only [search_goals] at hlw
    split at hlw
    · have hlw2 := Option.some.inj hlw
      rw [← hlw2] at hmemL
      rcases mem_traceFold_woth env categories reach item_locations always search_woth
        L env.trace _ hmemL with h0 | h1
      · simp at h0
      · exact htr h1
    · cases hlw
  · simp only [search_goals]
    refine List.mem_append.mpr (Or.inr ?_)
    rw [traceFold_remaining]
    exact mem_foldl_erase L env.trace all_locations hall
      (fun l hl hc => htr (hc ▸ hl))

/-- A second location fixture, never yielded by the frontier. -/
def wLoc2 : Location :=
  { name := "M", world_id := 0, item := { name := "Y", solver_id := none, world_id := 0 } }

/-- A solver run over a candidate list containing the unreachable
location, in way-of-the-hero mode. -/
def wRes5 : SGResult Nat :=
  search_goals wEnv [wCat] wReach 0 (fun _ _ => none) [wLoc, wLoc2] [wLoc, wLoc2] []
    (fun _ _ => 0) (fun _ => 0) true

/-- Witness for C5: the unreachable location of the concrete run is
marked miscellaneous-hintable, through the theorem itself. -/
theorem search_goals_unreachable_location_witness : wLoc2 ∈ wRes5.misc :=
  (search_goals_unreachable_location wEnv [wCat] wReach 0 (fun _ _ => none)
    [wLoc, wLoc2] [wLoc, wLoc2] [] (fun _ _ => 0) (fun _ => 0) true wLoc2
    (by decide) (by decide)).2.2

/-- C7: Goal.requires returns true exactly when the item's name, or its
declared alias, appears among the goal's item specs marked non-hintable;
and for every location whose detached item the goal requires,
search_goals never records that location as required for that goal (goals
being identified by the category and goal names the output is keyed by,
which the duplicate-freedom hypotheses make unambiguous), even when
removing the item makes the goal unreachable in the counterfactual check
(the statement holds for every behaviour of the search oracle). -/
theorem requires_characterization_and_suppression :
    (∀ (itemAlias : String → Option String) (g : Goal) (item : String),
        goalRequires itemAlias g item = true ↔ requiresSpec itemAlias g item) ∧
    (∀ (σ : Type) (env : SGEnv σ) (categories : List GoalCategory) (reach : CatGoalWids)
        (col0 : σ) (priority0 : Nat → String → Option String)
        (all_locations item_locations : List Location) (always : List String)
        (gW0 : String → String → Nat) (cW0 : String → Nat) (search_woth : Bool)
        (cat : GoalCategory) (goal : Goal) (L : Location),
        cat ∈ categories → goal ∈ cat.goals →
        (categories.map GoalCategory.name).Nodup →
        (cat.goals.map Goal.name).Nodup →
        goalRequires env.itemAlias goal L.item.name = true →
        ∀ w a b, (L, a, b) ∉ (search_goals env categories reach col0 priority0
            all_locations item_locations always gW0 cW0 search_woth).req
            cat.name goal.name w) := by
  constructor
  · intro itemAlias g item
    simp only [goalRequires, requiresSpec]
    rw [List.any_eq_true]
    constructor
    · rintro ⟨i, hi, hcond⟩
      rw [Bool.and_eq_true] at hcond
      obtain ⟨hname, hhint⟩ := hcond
      have hmem := of_decide_eq_true hname
      refine ⟨i, hi, ?_, by simpa using hhint⟩
      cases halias : itemAlias item with
      | none =>
        rw [halias] at hmem
        simp at hmem
        exact Or.inl hmem
      | some a =>
        rw [halias] at hmem
        simp at hmem
        rcases hmem with h | h
        · exact Or.inl h
        · exact Or.inr ⟨a, rfl, h⟩
    · rintro ⟨i, hi, hname, hhint⟩
      refine ⟨i, hi, ?_⟩
      rw [Bool.and_eq_true]
      refine ⟨decide_eq_true ?_, by simp [hhint]⟩
      cases halias : itemAlias item with
      | none =>
        rcases hname with h | ⟨a, ha, -⟩
        · simp [h]
        · rw [halias] at ha
          cases ha
      | some a =>
        rcases hname with h | ⟨a2, ha2, h2⟩
        · simp [h]
        · rw [halias] at ha2
          have ha3 := Option.some.inj ha2
          simp [h2, ha3]
  · intro σ env categories reach col0 priority0 all_locations item_locations always
      gW0 cW0 search_woth cat goal L hcat hgoal hndc hndg hreq w a b hmem
    rcases mem_traceFold_req env categories reach item_locations always search_woth
      cat.name goal.name w (L, a, b) env.trace
      { req := fun _ _ _ => [], woth := [], priority := priority0, gW := gW0, cW := cW0,
        col := col0, misc := [], remaining := all_locations } hmem
      with h0 | ⟨loc, cat2, goal2, hltr, hcat2, hgoal2, hc, hg, ht, hreq2⟩
    · simp at h0
    · have hL : L = loc := by
        have := congrArg Prod.fst ht
        simpa [locWeights_fst] using this
      have hceq : cat2 = cat := List.inj_on_of_nodup_map hndc hcat2 hcat hc.symm
      subst hceq
      have hgeq : goal2 = goal := List.inj_on_of_nodup_map hndg hgoal2 hgoal hg.symm
      subst hgeq
      rw [← hL] at hreq2
      rw [hreq] at hreq2
      cases hreq2

/-- Goal fixture requiring a non-hintable token item. -/
def wGoalReq : Goal :=
  { world_id := 0, name := "g", hint_text := "h", color := "White",
    items := [{ name := "X", quantity := 1, minimum := 1, hintable := false }],
    locations := [], lock_locations := [], lock_entrances := [], required_locations := [],
    weight := 0, category := some "A", item_cache := [] }

/-- Category fixture owning the token goal. -/
def wCatReq : GoalCategory :=
  { name := "A", priority := 1, lock_locations := [], lock_entrances := none,
    goals := [wGoalReq], goal_count := 1, minimum_goals := 1, weight := 0, goal_cache := [] }

/-- A concrete run where the only goal requires the detached item. -/
def wRes7 : SGResult Nat :=
  search_goals wEnv [wCatReq] wReach 0 (fun _ _ => none) [wLoc] [wLoc] []
    (fun _ _ => 0) (fun _ => 0) false

/-- Witness for C7: in the concrete run the location is never credited
to the goal that requires its item, through the theorem itself. -/
theorem requires_characterization_and_suppression_witness :
    (wLoc, 1, 1) ∉ wRes7.req "A" "g" 0 :=
  requires_characterization_and_suppression.2 Nat wEnv [wCatReq] wReach 0
    (fun _ _ => none) [wLoc] [wLoc] [] (fun _ _ => 0) (fun _ => 0) false wCatReq wGoalReq
    wLoc (by decide) (by decide) (by decide) (by decide) (by decide) 0 1 1

/-- C10: the mapping returned by search_goals contains the reserved
way-of-the-hero key exactly when it was called with search_woth true (the
embedding keeps that key apart from the category entries, under the
assumption that no category carries the reserved name); when present it
is a flat location list with no category, goal or world nesting, and it
exists even when no location qualified, so callers may unconditionally
read and delete it after a way-of-the-hero run. -/
theorem search_goals_woth_key {σ : Type} (env : SGEnv σ) (categories : List GoalCategory)
    (reach : CatGoalWids) (col0 : σ) (priority0 : Nat → String → Option String)
    (all_locations item_locations : List Location) (always : List String)
    (gW0 : String → String → Nat) (cW0 : String → Nat) (search_woth : Bool)
    (hreserved : "way of the hero" ∉ categories.map GoalCategory.name) :
    ((search_goals env categories reach col0 priority0 all_locations item_locations
      always gW0 cW0 search_woth).woth).isSome = search_woth := by
  cases search_woth <;> simp [search_goals]

/-- Witness for C10: the way-of-the-hero entry of the concrete
way-of-the-hero run is present, through the theorem itself. -/
theorem search_goals_woth_key_witness : wRes5.woth.isSome = true :=
  search_goals_woth_key wEnv [wCat] wReach 0 (fun _ _ => none) [wLoc, wLoc2]
    [wLoc, wLoc2] [] (fun _ _ => 0) (fun _ => 0) true (by decide)

/-- The part of a World visible to the tail of update_goal_items (from
the point where the merged required-locations map and the way-of-the-hero
list are in hand, line 250 of the source): its id, its goal category
table and the two settings flags the fallback condition reads. -/
structure UWorld where
  id : Nat
  goal_categories : List (String × GoalCategory)
  use_default_goals : Bool
  enable_goal_hints : Bool
  deriving DecidableEq

/-- The merged required_locations dictionary after the way-of-the-hero
key has been extracted: category name to goal name to fulfilled world id
to recorded tuples. -/
abbrev MergedReq := List (String × List (String × List (Nat × List (Location × Nat × Nat))))

/-- The spoiler-facing required_locations_dict: goal world, category
name, goal name and location world lead to plain location lists
(defaultdict semantics, missing keys are empty). -/
abbrev GLD := Nat → String → String → Nat → List Location

/-- Appending one location under required_locations_dict[gw][c][g][w]. -/
def gldAppend (m : GLD) (gw : Nat) (c g : String) (w : Nat) (loc : Location) : GLD :=
  fun a b c2 d =>
    if a = gw ∧ b = c ∧ c2 = g ∧ d = w then m a b c2 d ++ [loc] else m a b c2 d

/-- goal_locations[location].append(goal_world) on the insertion-ordered
dictionary from locations to contributing world ids. -/
def glAppend : List (Location × List Nat) → Location → Nat → List (Location × List Nat)
  | [], loc, gw => [(loc, [gw])]
  | p :: r, loc, gw =>
    if p.1 = loc then (p.1, p.2 ++ [gw]) :: r else p :: glAppend r loc gw

/-- The item spec of the synthesized default final-boss goal. -/
def triforceSpec : GoalItem :=
  { name := "Triforce", quantity := 1, minimum := 1, hintable := true }

/-- The fallback body for one world (lines 264-272): the filtered
way-of-the-hero list becomes the goal's required locations, a fresh
ganon category of priority 30 wraps the synthesized goal, the world's
category table gains the category, and the spoiler receives a copy. -/
def fallbackWorld (w : UWorld) (woth_locations : List Location) :
    Except String (UWorld × List (String × GoalCategory) × List Location) := do
  let filtered := woth_locations.filter (fun l => l.world_id = w.id)
  let locations := filtered.map (fun l => (l, 1, 1, [w.id]))
  let c := categoryInit "ganon" 30 1 1 [] none
  let g ← goalInit w.id "the hero" "way of the hero" "White" [triforceSpec] [] [] [] [] false
  let g2 := { g with required_locations := locations }
  let c2 := add_goal c g2
  let cCopy ← categoryCopy c2
  Except.ok ({ w with goal_categories := ainsert "ganon" c2 w.goal_categories },
    [("ganon", cCopy)], locations.map (fun t => t.1))

/-- The fallback loop over all worlds, threading the spoiler
required_locations_dict. -/
def fallbackGo (woth_locations : List Location) :
    List UWorld → GLD →
    Except String (List UWorld × List (Nat × List (String × GoalCategory)) × GLD)
  | [], gld => Except.ok ([], [], gld)
  | w :: ws, gld =>
    match fallbackWorld w woth_locations with
    | Except.error e => Except.error e
    | Except.ok (w2, sc, locs) =>
      match fallbackGo woth_locations ws (fun a b c d =>
          if a = w.id ∧ b = "ganon" ∧ c = "the hero" ∧ d = w.id then locs
          else gld a b c d) with
      | Except.error e => Except.error e
      | Except.ok (ws2, scs, gld3) => Except.ok (w2 :: ws2, (w.id, sc) :: scs, gld3)

/-- The inner tuple loop of the reshape branch (lines 286-294): tuples
whose location belongs to another world are filtered out, the others are
appended to the spoiler structure and to the goal's location map. -/
def reshapeLocTuple (wid : Nat) (cn gn : String) (goal_world : Nat)
    (r : GLD × List (Location × List Nat)) (t : Location × Nat × Nat) :
    GLD × List (Location × List Nat) :=
  if t.1.world_id ≠ wid then r
  else (gldAppend r.1 goal_world cn gn wid t.1, glAppend r.2 t.1 goal_world)

/-- The goal loop body of the reshape branch (lines 278-295). -/
def reshapeGoal (wid : Nat) (cn : String)
    (catReq : List (String × List (Nat × List (Location × Nat × Nat))))
    (q : GLD × List Goal) (goal : Goal) : GLD × List Goal :=
  match alook goal.name catReq with
  | none => (q.1, q.2 ++ [goal])
  | some worldMap =>
    let folded := worldMap.foldl
      (fun (r : GLD × List (Location × List Nat)) gw =>
        gw.2.foldl (reshapeLocTuple wid cn goal.name gw.1) r) (q.1, [])
    let goal2 := { goal with required_locations := folded.2.map (fun p => (p.1, 1, 1, p.2)) }
    (folded.1, q.2 ++ [goal2])

/-- The category loop body of the reshape branch (lines 275-295): a
category whose key is absent from the merged map is kept untouched, the
others have their goals rebuilt (the inner lookups use the category's
own name, as the source does, with the defaultdict reading of a missing
key as an empty dictionary). -/
def reshapeCat (wid : Nat) (req : MergedReq)
    (p : GLD × List (String × GoalCategory)) (entry : String × GoalCategory) :
    GLD × List (String × GoalCategory) :=
  match alook entry.1 req with
  | none => (p.1, p.2 ++ [entry])
  | some _ =>
    let catReq := (alook entry.2.name req).getD []
    let folded := entry.2.goals.foldl (reshapeGoal wid entry.1 catReq) (p.1, [])
    (folded.1, p.2 ++ [(entry.1, { entry.2 with goals := folded.2 })])

/-- The world loop of the reshape branch. -/
def reshapeWorld (req : MergedReq) (p : GLD × List UWorld) (w : UWorld) :
    GLD × List UWorld :=
  let folded := w.goal_categories.foldl (reshapeCat w.id req) (p.1, [])
  (folded.1, p.2 ++ [{ w with goal_categories := folded.2 }])

/-- The spoiler snapshot of the reshape branch (lines 298-299): a copy
of every world's goal categories. -/
def spoilerCopies (worlds : List UWorld) :
    Except String (List (Nat × List (String × GoalCategory))) :=
  worlds.mapM (fun w => do
    let pairs ← w.goal_categories.mapM (fun e => do
      let c ← categoryCopy e.2
      Except.ok (e.1, c))
    Except.ok (w.id, pairs))

/-- The result of the tail of update_goal_items: the mutated worlds, the
spoiler's required-locations (the per-world way-of-the-hero lists), the
spoiler's goal-category snapshot and the spoiler's goal_locations
structure. -/
structure FinalizeOut where
  worlds : List UWorld
  spoiler_required : List (Nat × List Location)
  spoiler_goal_categories : List (Nat × List (String × GoalCategory))
  goal_locations : GLD

/-- The tail of update_goal_items (lines 250-300): the per-world
way-of-the-hero lists are computed, then either the default final-boss
goal is synthesized per world (when the merged map is empty, the first
world has no category named ganon, default goals are enabled and goal
hints are enabled) or the recorded results are reshaped into the
spoiler-facing structure. A world list that is empty is a caller error
(the source would have failed earlier on worlds[0]). -/
def update_goal_items_finalize (worlds : List UWorld) (required_locations : MergedReq)
    (woth_locations : List Location) : Except String FinalizeOut :=
  match worlds with
  | [] => Except.error "no worlds"
  | w0 :: _ =>
    let spoiler_required := worlds.map
      (fun w => (w.id, woth_locations.filter (fun l => l.world_id = w.id)))
    if required_locations.isEmpty = true ∧ (alook "ganon" w0.goal_categories).isNone = true ∧
        w0.use_default_goals = true ∧ w0.enable_goal_hints = true then
      match fallbackGo woth_locations worlds (fun _ _ _ _ => []) with
      | Except.error e => Except.error e
      | Except.ok (ws2, scs, gld) =>
        Except.ok { worlds := ws2, spoiler_required := spoiler_required,
                    spoiler_goal_categories := scs, goal_locations := gld }
    else
      let folded := worlds.foldl (reshapeWorld required_locations)
        ((fun _ _ _ _ => [] : GLD), [])
      match spoilerCopies folded.2 with
      | Except.error e => Except.error e
      | Except.ok scs =>
        Except.ok { worlds := folded.2, spoiler_required := spoiler_required,
                    spoiler_goal_categories := scs, goal_locations := folded.1 }

/-- The category the fallback synthesizes for one world: priority 30,
one goal named the hero whose required locations are the world's
way-of-the-hero list. -/
def ganonCategory (w : UWorld) (woth_locations : List Location) : GoalCategory :=
  add_goal (categoryInit "ganon" 30 1 1 [] none)
    { world_id := w.id, name := "the hero", hint_text := "way of the hero",
      color := "White", items := [triforceSpec], locations := [], lock_locations := [],
      lock_entrances := [],
      required_locations :=
        (woth_locations.filter (fun l => l.world_id = w.id)).map
          (fun l => (l, 1, 1, [w.id])),
      weight := 0, category := none, item_cache := [] }

theorem fallbackWorld_spec (w : UWorld) (woth_locations : List Location) :
    ∃ sc locs, fallbackWorld w woth_locations = Except.ok
      ({ w with goal_categories :=
          ainsert "ganon" (ganonCategory w woth_locations) w.goal_categories },
        sc, locs) :=
  ⟨_, _, rfl⟩

theorem filter_key_nil {α : Type _} (k : String) :
    ∀ l : List (String × α), alook k l = none →
      l.filter (fun p => decide (p.1 = k)) = [] := by
  intro l
  induction l with
  | nil => intro _; rfl
  | cons p r ih =>
    intro h
    by_cases hp : p.1 = k
    · simp [alook, hp] at h
    · simp only [alook, if_neg hp] at h
      simp [List.filter, hp, ih h]

theorem alook_append_self {α : Type _} (k : String) (v : α) (l : List (String × α))
    (h : alook k l = none) : alook k (l ++ [(k, v)]) = some v := by
  rw [alook_append, h]
  simp [alook]

theorem fallbackGo_spec (woth_locations : List Location) :
    ∀ (ws : List UWorld) (gld : GLD),
      ∃ ws2 scs gld2, fallbackGo woth_locations ws gld = Except.ok (ws2, scs, gld2) ∧
        ws2.length = ws.length ∧
        ∀ i w w2, ws.get? i = some w → ws2.get? i = some w2 →
          w2 = { w with goal_categories := ainsert "ganon" (ganonCategory w woth_locations) w.goal_categories } := by
  intro ws
  induction ws with
  | nil =>
    intro gld
    exact ⟨[], [], gld, rfl, rfl, by intro i w w2 h; simp at h⟩
  | cons w rest ih =>
    intro gld
    obtain ⟨sc, locs, hw⟩ := fallbackWorld_spec w woth_locations
    obtain ⟨ws2, scs, gld2, hgo, hlen, hrel⟩ := ih
      (fun a b c d =>
        if a = w.id ∧ b = "ganon" ∧ c = "the hero" ∧ d = w.id then locs else gld a b c d)
    refine ⟨{ w with goal_categories := ainsert "ganon" (ganonCategory w woth_locations) w.goal_categories } :: ws2,
      (w.id, sc) :: scs, gld2, ?_, by simp [hlen], ?_⟩
    · simp [fallbackGo, hw, hgo]
    · intro i wj wj2 hj hj2
      cases i with
      | zero =>
        simp only [List.get?] at hj hj2
        injection hj with hj
        injection hj2 with hj2
        subst hj
        subst hj2
        rfl
      | succ j =>
        simp only [List.get?] at hj hj2
        exact hrel j wj wj2 hj hj2

/-- C4: in the tail of update_goal_items, if the merged required-
locations map is empty, the first world has no category named ganon,
default goals are enabled and goal hints are enabled, then for every
world exactly one new category named ganon of priority 30 holding
exactly one goal named the hero is synthesized, and that goal's required
locations are exactly that world's way-of-the-hero location list. (The
no-ganon hypothesis is taken for every world so that the synthesized
category is genuinely new in each.) -/
theorem update_goal_items_fallback (worlds : List UWorld)
    (required_locations : MergedReq) (woth_locations : List Location) (w0 : UWorld)
    (hhead : worlds.head? = some w0)
    (hreq : required_locations = [])
    (hganon : ∀ w, w ∈ worlds → alook "ganon" w.goal_categories = none)
    (hud : w0.use_default_goals = true)
    (heh : w0.enable_goal_hints = true) :
    ∃ out, update_goal_items_finalize worlds required_locations woth_locations =
        Except.ok out ∧
      out.worlds.length = worlds.length ∧
      ∀ i w w2, worlds.get? i = some w → out.worlds.get? i = some w2 →
        (w2.goal_categories.filter (fun p => decide (p.1 = "ganon"))).length = 1 ∧
        ∃ c gph, alook "ganon" w2.goal_categories = some c ∧
          c.name = "ganon" ∧ c.priority = 30 ∧ c.goals = [gph] ∧
          gph.name = "the hero" ∧
          gph.required_locations.map (fun t => t.1) =
            woth_locations.filter (fun l => l.world_id = w.id) := by
  cases worlds with
  | nil => simp at hhead
  | cons wh rest =>
    have hw0 : wh = w0 := by simpa using hhead
    subst hw0
    obtain ⟨ws2, scs, gld2, hgo, hlen, hrel⟩ :=
      fallbackGo_spec woth_locations (wh :: rest) (fun _ _ _ _ => [])
    have hcond : required_locations.isEmpty = true ∧
        (alook "ganon" wh.goal_categories).isNone = true ∧
        wh.use_default_goals = true ∧ wh.enable_goal_hints = true := by
      refine ⟨by simp [hreq], ?_, hud, heh⟩
      rw [hganon wh (List.mem_cons_self wh rest)]
      rfl
    have hout : update_goal_items_finalize (wh :: rest) required_locations woth_locations =
        Except.ok
          { worlds := ws2,
            spoiler_required := (wh :: rest).map (fun w => (w.id, woth_locations.filter (fun l => l.world_id = w.id))),
            spoiler_goal_categories := scs, goal_locations := gld2 } := by
      simp only [update_goal_items_finalize, if_pos hcond]
      simp [hgo]
    refine ⟨_, hout, hlen, ?_⟩
    · intro i w w2 hw hw2
      have hshape := hrel i w w2 hw hw2
      subst hshape
      have hgan : alook "ganon" w.goal_categories = none :=
        hganon w (List.get?_mem hw)
      have hins : ainsert "ganon" (ganonCategory w woth_locations) w.goal_categories =
          w.goal_categories ++ [("ganon", ganonCategory w woth_locations)] :=
        ainsert_of_absent "ganon" (ganonCategory w woth_locations) w.goal_categories hgan
      constructor
      · show ((ainsert "ganon" (ganonCategory w woth_locations)
            w.goal_categories).filter (fun p => decide (p.1 = "ganon"))).length = 1
        rw [hins, List.filter_append, filter_key_nil "ganon" w.goal_categories hgan]
        rfl
      · refine ⟨ganonCategory w woth_locations,
          { world_id := w.id, name := "the hero", hint_text := "way of the hero",
            color := "White", items := [triforceSpec], locations := [],
            lock_locations := [], lock_entrances := [],
            required_locations :=
              (woth_locations.filter (fun l => l.world_id = w.id)).map
                (fun l => (l, 1, 1, [w.id])),
            weight := 0, category := some "ganon", item_cache := [] },
          ?_, rfl, rfl, rfl, rfl, ?_⟩
        · show alook "ganon" (ainsert "ganon" (ganonCategory w woth_locations)
            w.goal_categories) = some (ganonCategory w woth_locations)
          rw [hins]
          exact alook_append_self "ganon" (ganonCategory w woth_locations)
            w.goal_categories hgan
        · simp only [List.map_map]
          have hcomp : (((fun (t : Location × Nat × Nat × List Nat) => t.1) ∘
              fun l => (l, 1, 1, [w.id])) : Location → Location) = fun l => l := by
            funext l
            rfl
          rw [hcomp]
          simp

/-- World fixture for the C4 witness. -/
def uwSample : UWorld :=
  { id := 0, goal_categories := [], use_default_goals := true, enable_goal_hints := true }

/-- Witness for C4: the fallback applied to one world with no
categories and a one-location way-of-the-hero list, through the theorem
itself with every hypothesis discharged concretely. -/
theorem update_goal_items_fallback_witness :
    ∃ out, update_goal_items_finalize [uwSample] [] [wLoc] = Except.ok out ∧
      out.worlds.length = [uwSample].length ∧
      ∀ i w w2, [uwSample].get? i = some w → out.worlds.get? i = some w2 →
        (w2.goal_categories.filter (fun p => decide (p.1 = "ganon"))).length = 1 ∧
        ∃ c gph, alook "ganon" w2.goal_categories = some c ∧
          c.name = "ganon" ∧ c.priority = 30 ∧ c.goals = [gph] ∧
          gph.name = "the hero" ∧
          gph.required_locations.map (fun t => t.1) =
            [wLoc].filter (fun l => l.world_id = w.id) :=
  update_goal_items_fallback [uwSample] [] [wLoc] uwSample rfl rfl
    (by
      intro w hw
      simp at hw
      subst hw
      rfl)
    rfl rfl

end OoTGoals
